import Mathlib

/-!
Verification of the GCC memory plugin (src/src/index.ts).

The plugin persists agent memory as text documents: per branch a commit
history (commit.md), a trace log (log.md) and a metadata file, plus one
global roadmap (main.md), an active-branch pointer file, and (for the
legacy flat index described in the specification) date-partitioned record
documents.  All operations are whole-document read/modify/write sequences
over these texts.

Strings are modelled as lists of characters (Str).  The JavaScript
primitives the source relies on are embedded directly:
String.prototype.split with a string separator (leftmost, non-overlapping),
lazy regular-expression captures bounded by lookaheads, String.prototype.trim,
Array/String.prototype.slice with negative indices, and JS truthiness of
strings (empty string is falsy).  Timestamps and commit hashes are
impure inputs in the source (Date.now / toISOString); here they are
explicit parameters of each operation.
-/

set_option maxRecDepth 1000000

abbrev Str := List Char

def str (s : String) : Str := s.data

/-- JS String.prototype.trim whitespace test (restricted to the ASCII
whitespace the documents actually contain). -/
def isWsChar (c : Char) : Bool := c = ' ' || c = '\t' || c = '\n' || c = '\r'

/-- JS String.prototype.trim: drop whitespace from both ends. -/
def trimChars (xs : Str) : Str :=
  ((xs.dropWhile isWsChar).reverse.dropWhile isWsChar).reverse

/-- JS String.prototype.includes: pat occurs somewhere in the string. -/
def containsSub (pat : Str) : Str → Bool
  | [] => pat.isPrefixOf []
  | c :: rest => pat.isPrefixOf (c :: rest) || containsSub pat rest

/-- Split on a single-character separator, JS String.prototype.split
semantics: "".split(sep) = [""], separators at the ends produce empty
chunks. -/
def splitOnChar (sep : Char) : Str → List Str
  | [] => [[]]
  | c :: rest =>
    if c = sep then [] :: splitOnChar sep rest
    else
      match splitOnChar sep rest with
      | [] => [[c]]
      | h :: t => (c :: h) :: t

/-- JS Array/String.prototype.slice with the usual negative-index
wrapping and clamping. -/
def jsSlice {α : Type} (l : List α) (s e : Int) : List α :=
  let len : Int := l.length
  let s' : Int := if s < 0 then max (len + s) 0 else min s len
  let e' : Int := if e < 0 then max (len + e) 0 else min e len
  (l.take e'.toNat).drop s'.toNat

/-- Pointwise update of a string-keyed store (one file write). -/
def updF (f : Str → Option Str) (k : Str) (v : Option Str) : Str → Option Str :=
  fun k' => if k' = k then v else f k'

/-- JS pattern `a || dflt` on an optional string argument: undefined and
the empty string both fall back to the default. -/
def orDefault (o : Option Str) (dflt : Str) : Str :=
  match o with
  | some v => if v = [] then dflt else v
  | none => dflt

/-! ## Commit-history parsing (index.ts lines 127-158, 259-270)

The source splits commit.md on the literal regex whose text is the
commit separator below, and extracts fields of the final block with lazy captures bounded by
lookaheads.  `capLen` returns the shortest prefix of the text whose
remaining suffix satisfies the lookahead; `matchFirst` scans for the first
occurrence of the header from which such a capture exists, exactly as the
regex engine tries successive starting positions. -/

def commitSep : Str := str "---\n**Commit**:"

/-- Fuelled worker for String.prototype.split on the commit separator.
The fuel is always instantiated with the length of the input, which every
step strictly decreases, so the fuel-exhausted branch is never taken. -/
def splitSepF : Nat → Str → Str → List Str
  | 0, xs, acc => [acc.reverse ++ xs]
  | _ + 1, [], acc => [acc.reverse]
  | fuel + 1, c :: rest, acc =>
    if commitSep.isPrefixOf (c :: rest) then
      acc.reverse :: splitSepF fuel ((c :: rest).drop commitSep.length) []
    else
      splitSepF fuel rest (c :: acc)

/-- content.split on the commit separator regex (index.ts line 141). -/
def splitCommits (xs : Str) : List Str := splitSepF xs.length xs []

/-- Lazy capture: shortest prefix whose remaining suffix satisfies the
lookahead test. -/
def capLen (stop : Str → Bool) : Str → Option Str
  | [] => if stop [] then some [] else none
  | c :: rest => if stop (c :: rest) then some [] else (capLen stop rest).map (c :: ·)

/-- /header([sS]*?)(?=lookahead)/ : try each starting position from the
left; at the first position where the header matches and a capture
bounded by the lookahead exists, return that capture. -/
def matchFirst (header : Str) (stop : Str → Bool) : Str → Option Str
  | [] => if header.isPrefixOf [] then capLen stop (([] : Str).drop header.length) else none
  | c :: rest =>
    if header.isPrefixOf (c :: rest) then
      match capLen stop ((c :: rest).drop header.length) with
      | some cap => some cap
      | none => matchFirst header stop rest
    else matchFirst header stop rest

/-- Lookahead (?=\n## This Commit) of the previous-summary field regex. -/
def stopThisCommit (s : Str) : Bool := (str "\n## This Commit").isPrefixOf s

/-- Lookahead (?=\n---|\n$|$) of the contribution field regex ($ has no
multiline flag, so \n$ is a newline at the very end of the text). -/
def stopContrib (s : Str) : Bool :=
  (str "\n---").isPrefixOf s || s = str "\n" || s = []

/-- Lookahead (?=\n## |$) of the branch-purpose regex. -/
def stopSection (s : Str) : Bool := (str "\n## ").isPrefixOf s || s.isEmpty

def headerPrevSummary : Str := str "## Previous Progress Summary\n"

def headerContribution : Str := str "## This Commit's Contribution\n"

def headerPurpose : Str := str "## Branch Purpose\n"

/-- allCommits = content.split(sep).filter(Boolean); the last element,
when any non-empty chunk remains. -/
def lastCommitChunk (doc : Str) : Option Str :=
  ((splitCommits doc).filter (fun chunk => !chunk.isEmpty)).getLast?

/-- prevSummaryMatch?.[1]?.trim() || "" on a commit chunk. -/
def prevPartOf (lastCommit : Str) : Str :=
  ((matchFirst headerPrevSummary stopThisCommit lastCommit).map trimChars).getD []

/-- contributionMatch?.[1]?.trim() || "" on a commit chunk. -/
def contribPartOf (lastCommit : Str) : Str :=
  ((matchFirst headerContribution stopContrib lastCommit).map trimChars).getD []

/-- The summary combination chain of index.ts lines 151-157: previous and
contribution when both present, a fresh bullet when only the contribution
parsed, the bare previous text when only it parsed, empty otherwise. -/
def combineSummary (prevPart contribPart : Str) : Str :=
  if prevPart ≠ [] ∧ contribPart ≠ [] then prevPart ++ str "\n- " ++ contribPart
  else if contribPart ≠ [] then str "- " ++ contribPart
  else if prevPart ≠ [] then prevPart
  else []

/-- index.ts lines 139-158: parse the last commit block of an existing
commit.md and fold its previous summary with its contribution.  The
allCommits.length > 0 guard is the none case of lastCommitChunk. -/
def computePreviousSummary (doc : Str) : Str :=
  match lastCommitChunk doc with
  | none => []
  | some lastCommit => combineSummary (prevPartOf lastCommit) (contribPartOf lastCommit)

/-- purposeMatch?.[1]?.trim() truthiness chain used by commit (line
134-137), merge (line 259-260) and context (line 353-354): the extracted
purpose when present and non-empty, else the caller's default. -/
def extractPurposeOr (dflt : Str) (doc : Str) : Str :=
  match matchFirst headerPurpose stopSection doc with
  | some cap => if trimChars cap = [] then dflt else trimChars cap
  | none => dflt

/-! ## Document templates rendered by the source -/

/-- The commit block template of index.ts lines 162-177, with the
previous-summary field already resolved (previousSummary || "Initial
commit" is applied by commitStep). -/
def renderCommitBlock (hash ts msg purpose recordedSummary contrib : Str) : Str :=
  str "\n---\n**Commit**: " ++ (hash ++ (str "\n**Time**: " ++ (ts ++
  (str "\n**Message**: " ++ (msg ++ (str "\n\n## Branch Purpose\n" ++ (purpose ++
  (str "\n\n## Previous Progress Summary\n" ++ (recordedSummary ++
  (str "\n\n## This Commit's Contribution\n" ++ (contrib ++ str "\n\n")))))))))))

/-- Everything of a commit block after the separator occurrence. -/
def blockTail (hash ts msg purpose recordedSummary contrib : Str) : Str :=
  str " " ++ (hash ++ (str "\n**Time**: " ++ (ts ++
  (str "\n**Message**: " ++ (msg ++ (str "\n\n## Branch Purpose\n" ++ (purpose ++
  (str "\n\n## Previous Progress Summary\n" ++ (recordedSummary ++
  (str "\n\n## This Commit's Contribution\n" ++ (contrib ++ str "\n\n")))))))))))

/-- main's commit.md as written on first plugin run (index.ts lines
596-602). -/
def mainInitDoc (ts : Str) : Str :=
  str "# Branch: main\n\n## Branch Purpose\nMain development branch\n\n## Previous Progress Summary\nInitialized at " ++
  (ts ++ str "\n\n---\n")

/-- A fresh branch's commit.md as written by the BRANCH tool (index.ts
lines 210-219). -/
def branchInitDoc (name purpose ts : Str) : Str :=
  str "# Branch: " ++ (name ++ (str "\n\n## Branch Purpose\n" ++ (purpose ++
  (str "\n\n## Previous Progress Summary\nBranch created at " ++ (ts ++ str "\n\n---\n")))))

/-- main.md as written on first plugin run (index.ts line 612). -/
def roadmapInitDoc (ts : Str) : Str :=
  str "# Project Roadmap\n\nInitialized at " ++ ts ++ str "\n\n## Goals\n\n## Milestones\n\n"

/-! ## Plugin state and operations

The state collects exactly the documents the source reads and writes:
the active-branch pointer file, the per-branch commit.md / log.md /
metadata.yaml stores, the roadmap main.md, and the date-partitioned
record documents of the legacy flat layout (which no operation in
index.ts ever touches; the spec's LegacyMemoryIndex is modelled
separately below).  An absent document is none; reads of absent
documents fall back to "" exactly where the source does. -/

structure GccState where
  currentBranchFile : Option Str
  commitDocs : Str → Option Str
  logDocs : Str → Option Str
  metaDocs : Str → Option Str
  mainDoc : Option Str
  dateDocs : Str → Option Str

/-- index.ts lines 74-80: the trimmed pointer file content, or "main"
when the pointer file is absent. -/
def getCurrentBranch (st : GccState) : Str :=
  match st.currentBranchFile with
  | some s => trimChars s
  | none => str "main"

/-- The state after the plugin's first-run setup (index.ts lines
589-613) starting from an empty project: main's commit.md and an empty
log.md are created, main.md is seeded, the pointer file is not written. -/
def freshInitState (ts : Str) : GccState where
  currentBranchFile := none
  commitDocs := fun b => if b = str "main" then some (mainInitDoc ts) else none
  logDocs := fun b => if b = str "main" then some [] else none
  metaDocs := fun _ => none
  mainDoc := some (roadmapInitDoc ts)
  dateDocs := fun _ => none

/-- timestamp.split("T")[0] (index.ts line 189). -/
def datePartOf (ts : Str) : Str := (splitOnChar 'T' ts).headI

/-- The COMMIT tool (index.ts lines 105-194).  Returns the updated state
and the returned text. -/
def commitStep (st : GccState) (message contribution : Str) (updateRoadmap : Bool)
    (hash ts : Str) : GccState × Str :=
  let branch := getCurrentBranch st
  let defaultPurpose :=
    if branch = str "main" then str "Main development branch" else str "Branch: " ++ branch
  let parsed : Str × Str :=
    match st.commitDocs branch with
    | none => (defaultPurpose, [])
    | some content => (extractPurposeOr defaultPurpose content, computePreviousSummary content)
  let branchPurpose := parsed.1
  let previousSummary := parsed.2
  let recorded := if previousSummary = [] then str "Initial commit" else previousSummary
  let commitEntry := renderCommitBlock hash ts message branchPurpose recorded contribution
  let existing := (st.commitDocs branch).getD []
  let st1 : GccState :=
    { st with
      commitDocs := updF st.commitDocs branch (some (existing ++ commitEntry))
      logDocs := updF st.logDocs branch (some []) }
  let st2 : GccState :=
    if updateRoadmap then
      { st1 with
        mainDoc := some ((st1.mainDoc.getD (str "# Project Roadmap\n\n")) ++
          str "\n- [" ++ datePartOf ts ++ str "] " ++ message ++ str "\n") }
    else st1
  (st2, str "✓ Committed [" ++ hash ++ str "] on branch '" ++ branch ++ str "': " ++ message)

/-- The BRANCH tool (index.ts lines 197-233): writes a fresh commit.md,
an empty log.md and a metadata file for the new branch, then switches
the pointer to it.  The source calls toISOString separately for the
commit.md note and the metadata line; both calls are modelled by the
one ts argument. -/
def branchStep (st : GccState) (name purpose ts : Str) : GccState × Str :=
  let st' : GccState :=
    { st with
      commitDocs := updF st.commitDocs name (some (branchInitDoc name purpose ts))
      logDocs := updF st.logDocs name (some [])
      metaDocs := updF st.metaDocs name
        (some (str "branch: " ++ name ++ str "\ncreated: " ++ ts ++ str "\n"))
      currentBranchFile := some name }
  (st', str "✓ Created and switched to branch '" ++ name ++ str "'\nPurpose: " ++ purpose)

/-- The SWITCH tool (index.ts lines 550-567). -/
def switchStep (st : GccState) (name : Str) : GccState × Str :=
  match st.commitDocs name with
  | none => (st, str "✗ Branch '" ++ name ++ str "' does not exist. Use memory_branch to create it.")
  | some _ =>
    ({ st with currentBranchFile := some name },
      str "✓ Switched to branch '" ++ name ++ str "'")

/-- The merge progress summary of index.ts lines 263-270: unlike the
commit fold it always joins the two parsed parts with a bullet. -/
def mergeProgressSummary (targetCommits : Str) : Str :=
  match lastCommitChunk targetCommits with
  | none => []
  | some lastCommit => prevPartOf lastCommit ++ str "\n- " ++ contribPartOf lastCommit

/-- The merge entry template of index.ts lines 278-294. -/
def renderMergeEntry (sourceBranch destBranch ts summary targetPurpose
    targetProgressSummary targetCommits : Str) : Str :=
  str "\n---\n**MERGE**: " ++ sourceBranch ++ str " → " ++ destBranch ++
  str "\n**Time**: " ++ ts ++ str "\n\n## Merge Summary\n" ++ summary ++
  str "\n\n## Merged Branch Context (Auto-Retrieved)\n**Purpose**: " ++ targetPurpose ++
  str "\n**Progress**: " ++ targetProgressSummary ++
  str "\n\n## Merged Commits from '" ++ sourceBranch ++ str "'\n" ++ targetCommits ++
  str "\n\n---\n"

/-- The MERGE tool (index.ts lines 236-311), merging args.branch into the
active branch.  Fails before any write when the source has no commit.md. -/
def mergeStep (st : GccState) (sourceBranch summary ts : Str) : GccState × Str :=
  let destBranch := getCurrentBranch st
  match st.commitDocs sourceBranch with
  | none => (st, str "✗ Branch '" ++ sourceBranch ++ str "' not found")
  | some targetCommits =>
    let targetLog := (st.logDocs sourceBranch).getD []
    let targetPurpose := extractPurposeOr (str "No purpose defined") targetCommits
    let targetProgressSummary := mergeProgressSummary targetCommits
    let mergeEntry := renderMergeEntry sourceBranch destBranch ts summary targetPurpose
      targetProgressSummary targetCommits
    let existingCommits := (st.commitDocs destBranch).getD []
    let existingLog := (st.logDocs destBranch).getD []
    let mergedLog := existingLog ++ str "\n\n== Merged from Branch: " ++ sourceBranch ++
      str " ==\n" ++ targetLog ++ str "\n"
    let mainContent := st.mainDoc.getD (str "# Project Roadmap\n\n")
    let st' : GccState :=
      { st with
        commitDocs := updF st.commitDocs destBranch (some (existingCommits ++ mergeEntry))
        logDocs := updF st.logDocs destBranch (some mergedLog)
        mainDoc := some (mainContent ++ str "\n- [MERGE] " ++ sourceBranch ++ str " → " ++
          destBranch ++ str ": " ++ summary ++ str "\n") }
    (st', str "✓ Merged '" ++ sourceBranch ++ str "' into '" ++ destBranch ++
      str "'\n\n## Target Branch Context (Auto-Retrieved)\nPurpose: " ++ targetPurpose ++
      str "\nProgress: " ++ jsSlice targetProgressSummary 0 200 ++ str "...\n\n" ++ summary)

/-- The windowed slice of CONTEXT level "log" (index.ts lines 405-412):
numLines = args.lines || 20, offset = args.offset || 0,
start = max(0, total - numLines - offset), end = total - offset,
window = logLines.slice(start, end). -/
def contextWindow (logLines : List Str) (linesArg offsetArg : Option Int) : List Str :=
  let numLines : Int := match linesArg with | none => 20 | some v => if v = 0 then 20 else v
  let offset : Int := match offsetArg with | none => 0 | some v => v
  let total : Int := logLines.length
  let start : Int := max 0 (total - numLines - offset)
  let e : Int := total - offset
  jsSlice logLines start e

/-- CONTEXT level "log" (index.ts lines 397-417): resolves the branch,
reports absence, otherwise returns the windowed lines (the source wraps
them in a scrolling header; the window itself is the content under
test). -/
def contextLog (st : GccState) (branchName : Option Str) (linesArg offsetArg : Option Int) :
    Option (List Str) :=
  let branch := orDefault branchName (getCurrentBranch st)
  match st.logDocs branch with
  | none => none
  | some lg => some (contextWindow (splitOnChar '\n' lg) linesArg offsetArg)

/-- The LOG entry template of index.ts lines 448-457, including the JS
truthiness of the optional arguments (an empty string behaves like an
absent one). -/
def logEntryOf (observation thought action entry : Option Str) (ts : Str) : Str :=
  str "\n[" ++ ts ++ str "]\n" ++
  (if orDefault entry [] ≠ [] then orDefault entry []
   else
    (match observation with
     | some o => if o ≠ [] then str "Observation: " ++ o ++ str "\n" else []
     | none => []) ++
    (match thought with
     | some t => if t ≠ [] then str "Thought: " ++ t ++ str "\n" else []
     | none => []) ++
    (match action with
     | some a => if a ≠ [] then str "Action: " ++ a ++ str "\n" else []
     | none => []))

/-- The LOG tool (index.ts lines 434-464). -/
def logStep (st : GccState) (observation thought action entry : Option Str) (ts : Str) :
    GccState × Str :=
  let branch := getCurrentBranch st
  let existing := (st.logDocs branch).getD []
  let st' : GccState :=
    { st with logDocs := updF st.logDocs branch (some (existing ++ logEntryOf observation thought action entry ts)) }
  (st', str "✓ Logged to branch '" ++ branch ++ str "'")

/-- The remember log entry of index.ts lines 483-488: a multi-line block,
not a logfmt record. -/
def rememberEntry (ty scope content : Str) (issue : Option Str) (tags : Option (List Str)) : Str :=
  str "\n**Memory Added**: " ++ ty ++ str " / " ++ scope ++
  str "\nContent: " ++ content ++ str "\n" ++
  (match issue with
   | some i => if i ≠ [] then str "Issue: " ++ i else []
   | none => []) ++ str "\n" ++
  (match tags with
   | some tg => if tg.length ≠ 0 then str "Tags: " ++ (str ", ").intercalate tg else []
   | none => []) ++ str "\n"

/-- The adapted remember tool (index.ts lines 467-497): appends its block
to the active branch's log.md and writes nothing else. -/
def rememberStep (st : GccState) (ty scope content : Str) (issue : Option Str)
    (tags : Option (List Str)) : GccState × Str :=
  let branch := getCurrentBranch st
  let existing := (st.logDocs branch).getD []
  let st' : GccState :=
    { st with logDocs := updF st.logDocs branch (some (existing ++ rememberEntry ty scope content issue tags)) }
  (st', str "Remembered: " ++ ty ++ str " in " ++ scope ++ str " (logged to branch '" ++
    branch ++ str "')")

def toLowerStr (xs : Str) : Str := xs.map Char.toLower

/-- The adapted recall tool (index.ts lines 499-548): lexical search over
the chosen branch's log.md and commit.md. -/
def recallStep (st : GccState) (query branchName scope ty : Option Str) : Str :=
  let searchBranch := orDefault branchName (getCurrentBranch st)
  let logResults : Str :=
    match st.logDocs searchBranch with
    | none => []
    | some lg =>
      let logLines := (splitOnChar '\n' lg).filter (fun l => !l.isEmpty)
      let f1 := match query with
        | some q => if q = [] then logLines
            else logLines.filter (fun line => containsSub (toLowerStr q) (toLowerStr line))
        | none => logLines
      let f2 := match scope with
        | some sc => if sc = [] then f1 else f1.filter (fun line => containsSub sc line)
        | none => f1
      let f3 := match ty with
        | some t => if t = [] then f2 else f2.filter (fun line => containsSub t line)
        | none => f2
      if f3.length ≠ 0 then
        str "## Log Results (" ++ (Nat.repr f3.length).data ++ str " matches)\n" ++
        (str "\n").intercalate (jsSlice f3 (-20) f3.length) ++ str "\n\n"
      else []
  let commitResults : Str :=
    match st.commitDocs searchBranch with
    | none => []
    | some commits =>
      match query with
      | some q =>
        if q ≠ [] ∧ containsSub (toLowerStr q) (toLowerStr commits) then
          str "## Commit Results\n" ++ jsSlice commits (-1000) commits.length ++ str "\n"
        else []
      | none => []
  let results := logResults ++ commitResults
  if results = [] then str "No matching memories found" else results

/-! ## The legacy flat-record index (spec sections 4.7 and 8)

Modelled from the spec: the forget / recall record operations of the
LegacyMemoryIndex are described in spec.md section 4.7 but their
implementation is not part of src/ (index.ts only registers the adapted
remember / recall tools).  Records are date-partitioned; forget removes
every record matching scope+type from every document and appends one
audit entry per removed record; recall applies the scope
(exact-or-substring) and type (exact) filters.  The shared record
matcher realises the spec's "matching scope+type". -/

structure LegacyRecord where
  ts : Str
  ty : Str
  scope : Str
  content : Str
  issue : Option Str
  tags : List Str
deriving DecidableEq

structure DeletionAuditEntry where
  record : LegacyRecord
  reason : Str
  deletedAt : Str
deriving DecidableEq

structure LegacyState where
  docs : List (Str × List LegacyRecord)
  audit : List DeletionAuditEntry

/-- Modelled from the spec: the scope (exact-or-substring) and type
(exact) record filter shared by recall and forget. -/
def legacyMatches (scope ty : Str) (r : LegacyRecord) : Bool :=
  (r.scope = scope || containsSub scope r.scope) && r.ty = ty

/-- Modelled from the spec: recall restricted to scope+type filtering
(no free-text query), over every date-partitioned document. -/
def legacyRecall (st : LegacyState) (scope ty : Str) : List LegacyRecord :=
  (st.docs.map (fun d => d.2.filter (legacyMatches scope ty))).flatten

/-- Modelled from the spec: forget removes every record matching
scope+type from every document, appends one DeletionAuditEntry per
removed record preserving its content with the given reason, and reports
the removed count. -/
def legacyForget (st : LegacyState) (scope ty reason delTs : Str) : LegacyState × Nat :=
  let removed := (st.docs.map (fun d => d.2.filter (legacyMatches scope ty))).flatten
  let st' : LegacyState :=
    { docs := st.docs.map (fun d => (d.1, d.2.filter (fun r => !legacyMatches scope ty r)))
      audit := st.audit ++ removed.map (fun r => ⟨r, reason, delTs⟩) }
  (st', removed.length)

/-! ## Predicates and helper notions used by the theorems -/

/-- Characters that cannot interfere with the commit-block text format:
no newline or carriage return, and none of the markup characters the
separators and section headers are built from. -/
def plainChar (c : Char) : Bool := !(c = '\n' || c = '\r' || c = '#' || c = '*' || c = '-')

/-- The string neither starts nor ends with trim-whitespace, so JS trim
leaves it unchanged. -/
def trimStableB (x : Str) : Bool :=
  (match x.head? with | some h => !isWsChar h | none => true) &&
  (match x.getLast? with | some l => !isWsChar l | none => true)

/-- No two adjacent characters a, b occur in the string. -/
def noPair (a b : Char) : Str → Bool
  | [] => true
  | [_] => true
  | x :: y :: rest => !(x = a && y = b) && noPair a b (y :: rest)

/-- A well-formed user-supplied field of a commit block (hash, timestamp,
message, purpose, contribution): non-empty, free of format
characters, and stable under trim. -/
def wfFieldP (x : Str) : Prop := x ≠ [] ∧ x.all plainChar = true ∧ trimStableB x = true

/-- A well-formed recorded previous-progress summary: non-empty,
trim-stable, free of header characters, with no run of two dashes and no
newline directly followed by a hash.  Every summary the plugin itself
records from well-formed fields has this shape. -/
def wfSummaryP (s : Str) : Prop :=
  s ≠ [] ∧ trimStableB s = true ∧ s.all (fun c => !(c = '#' || c = '*')) = true ∧
  noPair '-' '-' s = true ∧ noPair '\n' '#' s = true

/-- No non-empty suffix of A, continued by B, starts with pat. -/
def SuffClean (pat A B : Str) : Prop :=
  ∀ a', a' <:+ A → a' ≠ [] → pat.isPrefixOf (a' ++ B) = false

/-- The commit separator matches at no position of the string. -/
def SepFree (R : Str) : Prop := ∀ r, r <:+ R → commitSep.isPrefixOf r = false

/-- Decidable check that pat cannot be a prefix of suffix ++ B, for any
continuation B whose first character (if any) satisfies mayHead. -/
def noPrefAux (mayHead : Char → Bool) : Str → Str → Bool
  | [], _ => false
  | p :: _, [] => !mayHead p
  | p :: ps, s :: ss => if p = s then noPrefAux mayHead ps ss else true

/-- Decidable check of SuffClean pat lit B for a concrete literal lit,
given the overapproximation mayHead of B's possible first characters. -/
def litNoPref (mayHead : Char → Bool) (pat lit : Str) : Bool :=
  (List.range lit.length).all (fun j => noPrefAux mayHead pat (lit.drop j))

/-! ## Spec-side definitions, for comparison with the code

These two definitions transcribe formulas of spec.md (not the source) and
are only compared against the embedded code. -/

/-- Spec section 4.5 / claim C6: the window of trace-log lines
"(total-lineCount-offset, total-offset) clamped to (0, total)"; natural
subtraction performs exactly the clamping the spec describes. -/
def specLogWindow (logLines : List Str) (lineCount offset : Nat) : List Str :=
  (logLines.take (logLines.length - offset)).drop (logLines.length - lineCount - offset)

/-- Spec section 8 / claim C2: the newline-joined fold of contributions
c1, "- "+c2, ..., "- "+cN. -/
def specJoinedFold (cs : List Str) : Str :=
  match cs with
  | [] => []
  | c1 :: rest => (str "\n").intercalate (c1 :: rest.map (fun c => str "- " ++ c))

/-- The evolving pair (commit.md content, next recorded previous-summary)
of branch main under repeated commits with fixed message "M", hash "h"
and timestamp "t" fields, starting from the first-run documents.  Used
to state the cumulative-fold theorems. -/
def mainDocModelStep (p : Str × Str) (c : Str) : Str × Str :=
  (p.1 ++ renderCommitBlock (str "h") (str "t") (str "M") (str "Main development branch") p.2 c,
    p.2 ++ str "\n- " ++ c)

def mainDocModel (t0 : Str) (cs : List Str) : Str × Str :=
  cs.foldl mainDocModelStep (mainInitDoc t0, str "Initial commit")

/-- The state of branch main after the same sequence of commits. -/
def mainStateAfter (t0 : Str) (cs : List Str) : GccState :=
  cs.foldl (fun st c => (commitStep st (str "M") c false (str "h") (str "t")).1)
    (freshInitState t0)

/-! ## Concrete scenario states used by the witnesses and counterexamples -/

/-- Fresh project, plugin first run at timestamp T0. -/
def scenarioState0 : GccState := freshInitState (str "T0")

/-- After commit (message A, contribution x) on main. -/
def scenarioState1 : GccState :=
  (commitStep scenarioState0 (str "A") (str "x") false (str "h1") (str "T1")).1

/-- After a second commit (message B, contribution y) on main. -/
def scenarioState2 : GccState :=
  (commitStep scenarioState1 (str "B") (str "y") false (str "h2") (str "T2")).1

/-- After creating branch exp (purpose alt) from scenarioState1; the
BRANCH tool also switches to exp. -/
def c5StateB : GccState := (branchStep scenarioState1 (str "exp") (str "alt") (str "T2")).1

/-- After commit (message B, contribution y) on branch exp. -/
def c5StateC : GccState := (commitStep c5StateB (str "B") (str "y") false (str "h2") (str "T3")).1

/-- After switching back to main. -/
def c5StateD : GccState := (switchStep c5StateC (str "main")).1

/-- After merging exp into main. -/
def c5StateE : GccState := (mergeStep c5StateD (str "exp") (str "ok") (str "T4")).1

/-! ## Generic toolkit: prefix-freeness over concatenations -/

theorem noPrefAux_sound (mayHead : Char → Bool) (B : Str)
    (hB : ∀ bh, B.head? = some bh → mayHead bh = true) :
    ∀ pat suffix, noPrefAux mayHead pat suffix = true →
      pat.isPrefixOf (suffix ++ B) = false := by
  intro pat
  induction pat with
  | nil => intro suffix h; simp [noPrefAux] at h
  | cons p ps ih =>
    intro suffix h
    cases suffix with
    | nil =>
      simp only [noPrefAux, Bool.not_eq_true'] at h
      cases hBc : B with
      | nil => simp [List.isPrefixOf]
      | cons bh bt =>
        have hmh : mayHead bh = true := hB bh (by simp [hBc])
        have hne : ¬ p = bh := by intro he; rw [he, hmh] at h; cases h
        simp [List.isPrefixOf, hne]
    | cons s ss =>
      by_cases hps : p = s
      · subst hps
        simp only [noPrefAux, if_pos rfl] at h
        have := ih ss h
        simp [List.isPrefixOf, this]
      · simp [List.isPrefixOf, hps]

theorem litNoPref_sound {mayHead : Char → Bool} {pat lit B : Str}
    (h : litNoPref mayHead pat lit = true)
    (hB : ∀ bh, B.head? = some bh → mayHead bh = true) : SuffClean pat lit B := by
  intro a' hsuf hne
  have hlen : a'.length ≤ lit.length := hsuf.length_le
  have hdrop : a' = lit.drop (lit.length - a'.length) := List.suffix_iff_eq_drop.mp hsuf
  have hpos : 0 < a'.length := List.length_pos.mpr hne
  have hlit : 0 < lit.length := lt_of_lt_of_le hpos hlen
  have hjlt : lit.length - a'.length < lit.length := by omega
  have hmem : lit.length - a'.length ∈ List.range lit.length := List.mem_range.mpr hjlt
  have hall := List.all_eq_true.mp h _ hmem
  have := noPrefAux_sound mayHead B hB pat (lit.drop (lit.length - a'.length)) hall
  rw [hdrop]
  exact this

theorem suffClean_append {pat A₁ A₂ B : Str} (h1 : SuffClean pat A₁ (A₂ ++ B))
    (h2 : SuffClean pat A₂ B) : SuffClean pat (A₁ ++ A₂) B := by
  induction A₁ with
  | nil => simpa using h2
  | cons c A₁' ih =>
    intro a' hsuf hne
    rw [List.cons_append] at hsuf
    rcases List.suffix_cons_iff.mp hsuf with heq | htail
    · have := h1 (c :: A₁') List.suffix_rfl (by simp)
      rw [heq]
      simpa [List.append_assoc] using this
    · exact ih (fun x hx hxne => h1 x (hx.trans (List.suffix_cons c A₁')) hxne) a' htail hne

theorem suffClean_head_ne {p0 : Char} {pr F B : Str}
    (hchars : ∀ ch ∈ F, ¬ ch = p0) : SuffClean (p0 :: pr) F B := by
  intro a' hsuf hne
  cases a' with
  | nil => exact absurd rfl hne
  | cons ah t =>
    have hmem : ah ∈ F := hsuf.subset (by simp)
    have : ¬ p0 = ah := fun he => hchars ah hmem he.symm
    simp [List.isPrefixOf, this]

theorem noPair_cons_tail {a b x : Char} {t : Str} (h : noPair a b (x :: t) = true) :
    noPair a b t = true := by
  cases t with
  | nil => rfl
  | cons y r =>
    simp only [noPair, Bool.and_eq_true] at h
    exact h.2

theorem suffClean_pair {a b : Char} {pr F B : Str}
    (hnp : noPair a b F = true)
    (hB : ∀ bh, B.head? = some bh → ¬ bh = b) :
    SuffClean (a :: b :: pr) F B := by
  induction F with
  | nil =>
    intro a' hsuf hne
    exact absurd (List.suffix_nil.mp hsuf) hne
  | cons f F' ih =>
    intro a' hsuf hne
    rcases List.suffix_cons_iff.mp hsuf with heq | htail
    · subst heq
      by_cases hfa : f = a
      · have hrest : (b :: pr).isPrefixOf (F' ++ B) = false := by
          cases F' with
          | nil =>
            cases hBc : B with
            | nil => simp [List.isPrefixOf]
            | cons bh bt =>
              have h1 : ¬ bh = b := hB bh (by simp [hBc])
              have h2 : ¬ b = bh := fun he => h1 he.symm
              simp [List.isPrefixOf, h2]
          | cons g G =>
            have hgb : ¬ (f = a ∧ g = b) := by
              intro hpair
              simp only [noPair, Bool.and_eq_true, Bool.not_eq_true'] at hnp
              rw [hpair.1, hpair.2] at hnp
              simp at hnp
            have h1 : ¬ g = b := fun he => hgb ⟨hfa, he⟩
            have h2 : ¬ b = g := fun he => h1 he.symm
            simp [List.isPrefixOf, h2]
        simp [List.isPrefixOf, hrest]
      · have h2 : ¬ a = f := fun he => hfa he.symm
        simp [List.isPrefixOf, h2]
    · exact ih (noPair_cons_tail hnp) a' htail hne

theorem sepFree_of_suffClean {R : Str} (h : SuffClean commitSep R []) : SepFree R := by
  intro r hsuf
  cases hr : r with
  | nil => decide
  | cons c t =>
    have := h r hsuf (by rw [hr]; simp)
    rw [List.append_nil] at this
    rw [hr] at this
    exact this

/-! ## Lemmas about the lazy capture and the scanning match -/

theorem capLen_stop_true {stop : Str → Bool} {xs : Str} (h : stop xs = true) :
    capLen stop xs = some [] := by
  cases xs <;> simp [capLen, h]

theorem capLen_append {stop : Str → Bool} {A B : Str}
    (h : ∀ a', a' <:+ A → a' ≠ [] → stop (a' ++ B) = false) :
    capLen stop (A ++ B) = (capLen stop B).map (A ++ ·) := by
  induction A with
  | nil =>
    cases hB : capLen stop B <;> simp [hB]
  | cons c A' ih =>
    have h0 : stop (c :: (A' ++ B)) = false := by
      have := h (c :: A') List.suffix_rfl (by simp)
      rwa [List.cons_append] at this
    have ih' := ih (fun a' hs hne => h a' (hs.trans (List.suffix_cons c A')) hne)
    rw [List.cons_append]
    simp only [capLen, h0, ih']
    cases hB : capLen stop B <;> simp [hB]

theorem capLen_none {stop : Str → Bool} {xs : Str} (h : ∀ y, y <:+ xs → stop y = false) :
    capLen stop xs = none := by
  induction xs with
  | nil => simp [capLen, h [] List.suffix_rfl]
  | cons c rest ih =>
    simp [capLen, h _ List.suffix_rfl,
      ih (fun y hy => h y (hy.trans (List.suffix_cons c rest)))]

theorem matchFirst_append {header : Str} {stop : Str → Bool} {A B : Str}
    (h : SuffClean header A B) :
    matchFirst header stop (A ++ B) = matchFirst header stop B := by
  induction A with
  | nil => simp
  | cons c A' ih =>
    have h0 : header.isPrefixOf (c :: (A' ++ B)) = false := by
      have := h (c :: A') List.suffix_rfl (by simp)
      rwa [List.cons_append] at this
    rw [List.cons_append]
    simp only [matchFirst, List.append_eq, h0]
    rw [if_neg (by simp)]
    exact ih (fun a' hs hne => h a' (hs.trans (List.suffix_cons c A')) hne)

theorem matchFirst_here {header tail : Str} {stop : Str → Bool} {cap : Str}
    (hne : header ≠ []) (h : capLen stop tail = some cap) :
    matchFirst header stop (header ++ tail) = some cap := by
  obtain ⟨hc, hr, hh⟩ : ∃ hc hr, header = hc :: hr := by
    cases header with
    | nil => exact absurd rfl hne
    | cons a b => exact ⟨a, b, rfl⟩
  subst hh
  have hpre : (hc :: hr).isPrefixOf (hc :: (hr ++ tail)) = true := by
    rw [← List.cons_append]
    simp [List.isPrefixOf_iff_prefix]
  have hdrop : (hc :: (hr ++ tail)).drop (hc :: hr).length = tail := by
    rw [← List.cons_append]
    exact List.drop_left _ _
  rw [List.cons_append]
  simp only [matchFirst, List.append_eq, hpre, if_true, hdrop, h]

theorem matchFirst_none_of_no_stop {header : Str} {stop : Str → Bool} {xs : Str}
    (h : ∀ y, y <:+ xs → stop y = false) : matchFirst header stop xs = none := by
  induction xs with
  | nil =>
    simp only [matchFirst]
    split
    · simp [capLen, h [] List.suffix_rfl]
    · rfl
  | cons c rest ih =>
    have hcap : capLen stop ((c :: rest).drop header.length) = none := by
      apply capLen_none
      intro y hy
      exact h y (hy.trans (List.drop_suffix _ _))
    have ih' := ih (fun y hy => h y (hy.trans (List.suffix_cons c rest)))
    simp only [matchFirst, hcap]
    split <;> simp [ih']

theorem matchFirst_none_of_no_header {header : Str} {stop : Str → Bool} {xs : Str}
    (h : ∀ y, y <:+ xs → header.isPrefixOf y = false) : matchFirst header stop xs = none := by
  induction xs with
  | nil => simp [matchFirst, h [] List.suffix_rfl]
  | cons c rest ih =>
    have ih' := ih (fun y hy => h y (hy.trans (List.suffix_cons c rest)))
    simp [matchFirst, h _ List.suffix_rfl, ih']

/-! ## Lemmas about the split on the commit separator -/

theorem take_append_of_le {n : Nat} : ∀ {l₁ : Str} (l₂ : Str), n ≤ l₁.length →
    (l₁ ++ l₂).take n = l₁.take n := by
  induction n with
  | zero => intro l₁ l₂ _; simp
  | succ m ih =>
    intro l₁ l₂ h
    cases l₁ with
    | nil => simp at h
    | cons a t =>
      simp only [List.cons_append, List.take_succ_cons]
      rw [ih l₂ (by simpa using h)]

theorem getLast?_cons_ne {α : Type} {a : α} {l : List α} (h : l ≠ []) :
    (a :: l).getLast? = l.getLast? := by
  cases l with
  | nil => exact absurd rfl h
  | cons b t => exact List.getLast?_cons_cons

theorem splitSepF_ne_nil : ∀ (fuel : Nat) (xs acc : Str), splitSepF fuel xs acc ≠ [] := by
  intro fuel
  induction fuel with
  | zero => intro xs acc; simp [splitSepF]
  | succ f ih =>
    intro xs acc
    cases xs with
    | nil => simp [splitSepF]
    | cons c rest =>
      simp only [splitSepF]
      split
      · simp
      · exact ih rest (c :: acc)

theorem splitSepF_succ_pref {fuel : Nat} {xs acc : Str} (hx : xs ≠ [])
    (hp : commitSep.isPrefixOf xs = true) :
    splitSepF (fuel + 1) xs acc = acc.reverse :: splitSepF fuel (xs.drop commitSep.length) [] := by
  cases xs with
  | nil => exact absurd rfl hx
  | cons c rest => simp [splitSepF, hp]

theorem splitSepF_succ_nopref {fuel : Nat} {c : Char} {rest acc : Str}
    (hp : commitSep.isPrefixOf (c :: rest) = false) :
    splitSepF (fuel + 1) (c :: rest) acc = splitSepF fuel rest (c :: acc) := by
  simp [splitSepF, hp]

theorem splitNoSep {R : Str} (hSF : SepFree R) : ∀ (fuel : Nat) (acc : Str),
    splitSepF fuel R acc = [acc.reverse ++ R] := by
  induction R with
  | nil =>
    intro fuel acc
    cases fuel <;> simp [splitSepF]
  | cons c rest ih =>
    intro fuel acc
    cases fuel with
    | zero => rfl
    | succ f =>
      have h0 : commitSep.isPrefixOf (c :: rest) = false := hSF _ List.suffix_rfl
      rw [splitSepF_succ_nopref h0,
        ih (fun r hr => hSF r (hr.trans (List.suffix_cons c rest))) f (c :: acc)]
      simp

/-- The commit separator has no non-trivial border: no splitting of its
length 15 into j and 15-j makes it the concatenation of its own prefixes
of those lengths. -/
theorem commitSep_no_border : ∀ j : Fin 14,
    commitSep ≠ commitSep.take (j.val + 1) ++ commitSep.take (14 - j.val) := by decide

theorem take_append_of_ge : ∀ {A : Str} (B : Str) {n : Nat}, A.length ≤ n →
    (A ++ B).take n = A ++ B.take (n - A.length) := by
  intro A
  induction A with
  | nil => intro B n _; simp
  | cons a t ih =>
    intro B n h
    cases n with
    | zero => simp at h
    | succ m =>
      simp only [List.cons_append, List.take_succ_cons, List.length_cons]
      rw [ih B (by simpa using h)]
      simp [Nat.succ_sub_succ]

theorem splitLast : ∀ (fuel : Nat) (X acc R : Str),
    (X ++ (commitSep ++ R)).length ≤ fuel → SepFree R →
    (splitSepF fuel (X ++ (commitSep ++ R)) acc).getLast? = some R := by
  intro fuel
  induction fuel with
  | zero =>
    intro X acc R hlen _
    exfalso
    have h15 : commitSep.length = 15 := by decide
    simp [List.length_append, h15] at hlen
  | succ f ih =>
    intro X acc R hlen hSF
    cases X with
    | nil =>
      rw [List.nil_append]
      have hp : commitSep.isPrefixOf (commitSep ++ R) = true := by
        simp [List.isPrefixOf_iff_prefix]
      rw [splitSepF_succ_pref (by simp [commitSep, str]) hp, List.drop_left,
        splitNoSep hSF f []]
      simp
    | cons x X' =>
      have hsep15 : commitSep.length = 15 := by decide
      by_cases hp : commitSep.isPrefixOf ((x :: X') ++ (commitSep ++ R)) = true
      · have h1 : commitSep = ((x :: X') ++ (commitSep ++ R)).take 15 := by
          have := List.prefix_iff_eq_take.mp (List.isPrefixOf_iff_prefix.mp hp)
          rwa [hsep15] at this
        by_cases hlen15 : 15 ≤ (x :: X').length
        · -- the separator occurrence lies inside X; consume it and recurse
          have htake : commitSep = (x :: X').take 15 := by
            rw [h1, take_append_of_le _ hlen15]
          have hXeq : x :: X' = commitSep ++ (x :: X').drop 15 := by
            conv_lhs => rw [← List.take_append_drop 15 (x :: X')]
            rw [← htake]
          have hxs : (x :: X') ++ (commitSep ++ R) =
              commitSep ++ ((x :: X').drop 15 ++ (commitSep ++ R)) := by
            conv_lhs => rw [hXeq]
            rw [List.append_assoc]
          rw [hxs]
          have hne : commitSep ++ ((x :: X').drop 15 ++ (commitSep ++ R)) ≠ [] := by
            simp [commitSep, str]
          have hp2 : commitSep.isPrefixOf
              (commitSep ++ ((x :: X').drop 15 ++ (commitSep ++ R))) = true := by
            simp [List.isPrefixOf_iff_prefix]
          rw [splitSepF_succ_pref hne hp2, List.drop_left]
          rw [getLast?_cons_ne (splitSepF_ne_nil f _ _)]
          apply ih _ _ _ _ hSF
          have hlen2 : ((x :: X') ++ (commitSep ++ R)).length ≤ f + 1 := hlen
          rw [hxs] at hlen2
          simp only [List.length_append, hsep15] at hlen2 ⊢
          omega
        · -- a separator occurrence would straddle the boundary: impossible
          exfalso
          have hxlen : (x :: X').length < 15 := by omega
          have hxpos : 0 < (x :: X').length := by simp
          have h2 : commitSep =
              (x :: X') ++ (commitSep ++ R).take (15 - (x :: X').length) := by
            conv_lhs => rw [h1]
            rw [take_append_of_ge _ (by omega)]
          have h3 : commitSep =
              (x :: X') ++ commitSep.take (15 - (x :: X').length) := by
            conv_lhs => rw [h2]
            rw [take_append_of_le _ (by omega)]
          have h4 : commitSep.take (x :: X').length = x :: X' := by
            conv_lhs => rw [h3]
            rw [take_append_of_le _ (Nat.le_refl _), List.take_length]
          have hfull : commitSep =
              commitSep.take (x :: X').length ++ commitSep.take (15 - (x :: X').length) := by
            rw [h4]
            exact h3
          have hj : (x :: X').length - 1 < 14 := by omega
          apply commitSep_no_border ⟨(x :: X').length - 1, hj⟩
          have e1 : (x :: X').length - 1 + 1 = (x :: X').length := by omega
          have e2 : 14 - ((x :: X').length - 1) = 15 - (x :: X').length := by omega
          rw [e1, e2]
          exact hfull
      · have hp' : commitSep.isPrefixOf (x :: (X' ++ (commitSep ++ R))) = false := by
          rw [← List.cons_append]
          exact Bool.not_eq_true _ |>.mp hp
        rw [List.cons_append, splitSepF_succ_nopref hp']
        apply ih _ _ _ _ hSF
        simp only [List.cons_append, List.length_cons, List.length_append] at hlen ⊢
        omega

theorem splitCommits_last {X R : Str} (hSF : SepFree R) :
    (splitCommits (X ++ (commitSep ++ R))).getLast? = some R :=
  splitLast _ X [] R (Nat.le_refl _) hSF

theorem filtered_getLast {l : List Str} {R : Str} (h : l.getLast? = some R) (hne : R ≠ []) :
    (l.filter (fun chunk => !chunk.isEmpty)).getLast? = some R := by
  induction l with
  | nil => simp at h
  | cons a l ih =>
    cases l with
    | nil =>
      have ha : a = R := by simpa using h
      have hk : (!a.isEmpty) = true := by
        rw [ha]
        cases R with
        | nil => exact absurd rfl hne
        | cons c t => rfl
      simp [List.filter_cons, hk, ha, hne]
    | cons b t =>
      rw [List.getLast?_cons_cons] at h
      have ihr := ih h
      have hfne : ((b :: t).filter (fun chunk => !chunk.isEmpty)) ≠ [] := by
        intro hcontra
        rw [hcontra] at ihr
        simp at ihr
      rw [List.filter_cons]
      split
      · rw [getLast?_cons_ne hfne]
        exact ihr
      · exact ihr

theorem lastCommitChunk_append_block {X R : Str} (hSF : SepFree R) (hne : R ≠ []) :
    lastCommitChunk (X ++ (commitSep ++ R)) = some R :=
  filtered_getLast (splitCommits_last hSF) hne

theorem splitCommits_noSep {doc : Str} (hSF : SepFree doc) : splitCommits doc = [doc] := by
  rw [splitCommits, splitNoSep hSF]
  simp

theorem lastCommitChunk_noSep {doc : Str} (hSF : SepFree doc) (hne : doc ≠ []) :
    lastCommitChunk doc = some doc := by
  rw [lastCommitChunk, splitCommits_noSep hSF]
  have hk : (!doc.isEmpty) = true := by
    cases doc with
    | nil => exact absurd rfl hne
    | cons c t => rfl
  simp [List.filter_cons, hk, hne]

/-! ## Prefix evaluation over literal-headed concatenations -/

theorem prefix_append_iff_of_length_le {pat lit X : Str} (h : pat.length ≤ lit.length) :
    pat <+: (lit ++ X) ↔ pat <+: lit := by
  constructor
  · intro hp
    rw [List.prefix_iff_eq_take] at hp ⊢
    rwa [take_append_of_le _ h] at hp
  · intro hp
    exact hp.trans (List.prefix_append lit X)

theorem isPrefixOf_append_of_length_le {pat lit X : Str} (h : pat.length ≤ lit.length) :
    pat.isPrefixOf (lit ++ X) = pat.isPrefixOf lit := by
  by_cases hZ : pat <+: lit
  · have h1 : pat.isPrefixOf (lit ++ X) = true := by
      rw [List.isPrefixOf_iff_prefix]
      exact (prefix_append_iff_of_length_le h).mpr hZ
    have h2 : pat.isPrefixOf lit = true := by
      rw [List.isPrefixOf_iff_prefix]
      exact hZ
    rw [h1, h2]
  · have h1 : pat.isPrefixOf (lit ++ X) = false := by
      rw [← Bool.not_eq_true, List.isPrefixOf_iff_prefix]
      exact fun hc => hZ ((prefix_append_iff_of_length_le h).mp hc)
    have h2 : pat.isPrefixOf lit = false := by
      rw [← Bool.not_eq_true, List.isPrefixOf_iff_prefix]
      exact hZ
    rw [h1, h2]

theorem isPrefixOf_append_left {pat lit X : Str} (h : pat.isPrefixOf lit = true) :
    pat.isPrefixOf (lit ++ X) = true := by
  rw [List.isPrefixOf_iff_prefix] at h ⊢
  exact h.trans (List.prefix_append lit X)

/-! ## Trim lemmas -/

theorem trimStableB_head_false {c : Char} {t : Str} (h : trimStableB (c :: t) = true) :
    isWsChar c = false := by
  simp only [trimStableB, List.head?_cons, Bool.and_eq_true, Bool.not_eq_true'] at h
  exact h.1

theorem trimStableB_last_false {x : Str} {d : Char} (h : trimStableB x = true)
    (hd : x.getLast? = some d) : isWsChar d = false := by
  simp only [trimStableB, hd, Bool.and_eq_true, Bool.not_eq_true'] at h
  exact h.2

theorem dropWhile_eq_self_of_head {c : Char} {t : Str} (h : isWsChar c = false) :
    (c :: t).dropWhile isWsChar = c :: t := by
  simp [List.dropWhile_cons, h]

theorem trimChars_eq_self {x : Str} (h : trimStableB x = true) : trimChars x = x := by
  cases hx : x with
  | nil => rfl
  | cons c t =>
    rw [hx] at h
    have h1 : (c :: t).dropWhile isWsChar = c :: t :=
      dropWhile_eq_self_of_head (trimStableB_head_false h)
    rw [trimChars, h1]
    cases hr : (c :: t).reverse with
    | nil => simp at hr
    | cons d s =>
      have hd : (c :: t).getLast? = some d := by
        rw [← List.head?_reverse, hr, List.head?_cons]
      have h2 : isWsChar d = false := trimStableB_last_false h hd
      rw [dropWhile_eq_self_of_head h2, ← hr, List.reverse_reverse]

theorem trimChars_append_nl {x : Str} (hne : x ≠ []) (h : trimStableB x = true) :
    trimChars (x ++ str "\n") = x := by
  cases hx : x with
  | nil => exact absurd hx hne
  | cons c t =>
    rw [hx] at h
    have h1 : ((c :: t) ++ str "\n").dropWhile isWsChar = (c :: t) ++ str "\n" := by
      rw [List.cons_append]
      exact dropWhile_eq_self_of_head (trimStableB_head_false h)
    rw [trimChars, h1, List.reverse_append]
    have hrev : (str "\n").reverse = '\n' :: ([] : Str) := by decide
    rw [hrev]
    have h2 : ('\n' :: [] ++ (c :: t).reverse).dropWhile isWsChar =
        ((c :: t).reverse).dropWhile isWsChar := by
      simp [List.dropWhile_cons, isWsChar]
    rw [h2]
    cases hr : (c :: t).reverse with
    | nil => simp at hr
    | cons d s =>
      have hd : (c :: t).getLast? = some d := by
        rw [← List.head?_reverse, hr, List.head?_cons]
      have h3 : isWsChar d = false := trimStableB_last_false h hd
      rw [dropWhile_eq_self_of_head h3, ← hr, List.reverse_reverse]

/-! ## noPair lemmas -/

theorem noPair_of_all_ne_fst {a b : Char} {x : Str} (h : ∀ ch ∈ x, ¬ ch = a) :
    noPair a b x = true := by
  induction x with
  | nil => rfl
  | cons y t ih =>
    cases t with
    | nil => rfl
    | cons z r =>
      have hy : ¬ y = a := h y (by simp)
      simp only [noPair, Bool.and_eq_true, Bool.not_eq_true']
      constructor
      · simp [hy]
      · exact ih (fun ch hch => h ch (List.mem_cons_of_mem y hch))

theorem noPair_append {a b : Char} : ∀ {X Y : Str}, noPair a b X = true → noPair a b Y = true →
    (∀ xl, X.getLast? = some xl → ∀ yh, Y.head? = some yh → ¬(xl = a ∧ yh = b)) →
    noPair a b (X ++ Y) = true := by
  intro X
  induction X with
  | nil => intro Y _ hY _; simpa using hY
  | cons x X' ih =>
    intro Y hX hY hbd
    cases X' with
    | nil =>
      cases Y with
      | nil => rfl
      | cons yh yt =>
        have hb : ¬(x = a ∧ yh = b) := hbd x rfl yh rfl
        simp only [List.cons_append, List.nil_append, noPair, Bool.and_eq_true,
          Bool.not_eq_true']
        constructor
        · by_cases hxa : x = a
          · have : ¬ yh = b := fun hyb => hb ⟨hxa, hyb⟩
            simp [hxa, this]
          · simp [hxa]
        · exact hY
    | cons x2 X'' =>
      have hhead : ¬(x = a ∧ x2 = b) := by
        intro hpair
        simp only [noPair, Bool.and_eq_true, Bool.not_eq_true'] at hX
        rw [hpair.1, hpair.2] at hX
        simp at hX
      have htail : noPair a b (x2 :: X'') = true := noPair_cons_tail hX
      have hbd' : ∀ xl, (x2 :: X'').getLast? = some xl →
          ∀ yh, Y.head? = some yh → ¬(xl = a ∧ yh = b) := by
        intro xl hxl yh hyh
        exact hbd xl (by rw [List.getLast?_cons_cons]; exact hxl) yh hyh
      have := ih htail hY hbd'
      simp only [List.cons_append, noPair, Bool.and_eq_true, Bool.not_eq_true']
      constructor
      · by_cases hxa : x = a
        · have : ¬ x2 = b := fun hx2 => hhead ⟨hxa, hx2⟩
          simp [hxa, this]
        · simp [hxa]
      · simpa using this

/-! ## Well-formedness helpers -/

theorem plainChar_spec {ch : Char} (h : plainChar ch = true) :
    ¬ ch = '\n' ∧ ¬ ch = '\r' ∧ ¬ ch = '#' ∧ ¬ ch = '*' ∧ ¬ ch = '-' := by
  simp only [plainChar, Bool.not_eq_true', Bool.or_eq_false_iff, decide_eq_false_iff_not] at h
  exact ⟨h.1.1.1.1, h.1.1.1.2, h.1.1.2, h.1.2, h.2⟩

theorem suffClean_plainField {pat F B : Str} {p0 : Char} {pr : Str}
    (hpat : pat = p0 :: pr) (hp0 : plainChar p0 = false) (hF : F.all plainChar = true) :
    SuffClean pat F B := by
  subst hpat
  apply suffClean_head_ne
  intro ch hch he
  have := List.all_eq_true.mp hF ch hch
  rw [he] at this
  rw [this] at hp0
  cases hp0

theorem head?_append_ne {x y : Str} {ch : Char} (h : x.head? = some ch) :
    (x ++ y).head? = some ch := by
  cases x with
  | nil => simp at h
  | cons c t => simpa using h

theorem suffix_singleton {x : Char} {a' : Str} (h : a' <:+ [x]) : a' = [] ∨ a' = [x] := by
  rcases List.suffix_cons_iff.mp h with heq | htail
  · right; exact heq
  · left; exact List.suffix_nil.mp htail

theorem hB_trivial {B : Str} : ∀ bh, B.head? = some bh → (fun _ : Char => true) bh = true :=
  fun _ _ => rfl

theorem hB_nil {P : Char → Bool} : ∀ bh, ([] : Str).head? = some bh → P bh = true := by
  intro bh h
  simp at h

theorem hB_plainField {f rest : Str} (hf : f ≠ []) (hall : f.all plainChar = true) :
    ∀ bh, (f ++ rest).head? = some bh → plainChar bh = true := by
  intro bh h
  cases f with
  | nil => exact absurd rfl hf
  | cons c t =>
    have : bh = c := by simpa using h.symm
    subst this
    exact List.all_eq_true.mp hall bh (by simp)

theorem hB_plainField' {f rest : Str} (hf : f ≠ []) (hall : f.all plainChar = true) :
    ∀ bh, ((f ++ rest) ++ ([] : Str)).head? = some bh → plainChar bh = true := by
  rw [List.append_nil]
  exact hB_plainField hf hall

/-! ## Commit-separator freeness of a rendered block tail -/

theorem commitSep_eq : commitSep = '-' :: ('-' :: str "-\n**Commit**:") := by decide

theorem sepFree_blockTail {h t m p s c : Str}
    (hh : wfFieldP h) (ht : wfFieldP t) (hm : wfFieldP m) (hp : wfFieldP p)
    (hs : wfSummaryP s) (hc : wfFieldP c) :
    SepFree (blockTail h t m p s c) := by
  apply sepFree_of_suffClean
  rw [blockTail]
  have hplain : plainChar '-' = false := by decide
  apply suffClean_append (litNoPref_sound (by decide) hB_trivial)
  apply suffClean_append (suffClean_plainField commitSep_eq hplain hh.2.1)
  apply suffClean_append (litNoPref_sound (by decide) hB_trivial)
  apply suffClean_append (suffClean_plainField commitSep_eq hplain ht.2.1)
  apply suffClean_append (litNoPref_sound (by decide) hB_trivial)
  apply suffClean_append (suffClean_plainField commitSep_eq hplain hm.2.1)
  apply suffClean_append (litNoPref_sound (by decide) hB_trivial)
  apply suffClean_append (suffClean_plainField commitSep_eq hplain hp.2.1)
  apply suffClean_append (litNoPref_sound (by decide) hB_trivial)
  apply @suffClean_append _ _ _ ([]) ?hs ?hrest
  case hs =>
    rw [commitSep_eq]
    apply suffClean_pair hs.2.2.2.1
    intro bh hbh he
    rw [List.append_nil] at hbh
    have : bh = '\n' := by
      have h0 : (str "\n\n## This Commit's Contribution\n" ++ (c ++ str "\n\n")).head? =
          some '\n' := head?_append_ne (by decide)
      rw [h0] at hbh
      exact (by simpa using hbh : '\n' = bh).symm
    rw [this] at he
    cases he
  case hrest =>
    apply suffClean_append (litNoPref_sound (by decide) hB_trivial)
    apply suffClean_append (suffClean_plainField commitSep_eq hplain hc.2.1)
    exact @litNoPref_sound (fun _ => false) _ _ _ (by decide) hB_nil

/-! ## Field extraction from a rendered block tail -/

theorem headerPrevSummary_eq : headerPrevSummary = '#' :: str "# Previous Progress Summary\n" := by
  decide

theorem headerContribution_eq :
    headerContribution = '#' :: str "# This Commit's Contribution\n" := by decide

theorem thisCommitPat_eq : str "\n## This Commit" = '\n' :: ('#' :: str "# This Commit") := by
  decide

theorem nlDashPat_eq : str "\n---" = '\n' :: str "---" := by decide

theorem wfSummary_no_hash {s : Str} (hs : wfSummaryP s) : ∀ ch ∈ s, ¬ ch = '#' := by
  intro ch hch he
  have := List.all_eq_true.mp hs.2.2.1 ch hch
  rw [he] at this
  simp at this

theorem hashPlain : plainChar '#' = false := by decide

theorem matchFirst_prev_blockTail {h t m p s c : Str}
    (hh : wfFieldP h) (ht : wfFieldP t) (hm : wfFieldP m) (hp : wfFieldP p)
    (hs : wfSummaryP s) (_hc : wfFieldP c) :
    matchFirst headerPrevSummary stopThisCommit (blockTail h t m p s c) =
      some (s ++ str "\n") := by
  rw [blockTail]
  rw [show str "\n\n## Previous Progress Summary\n" = str "\n\n" ++ headerPrevSummary by decide,
    List.append_assoc]
  refine Eq.trans (matchFirst_append (litNoPref_sound (by decide) hB_trivial)) ?_
  refine Eq.trans
    (matchFirst_append (suffClean_plainField headerPrevSummary_eq hashPlain hh.2.1)) ?_
  refine Eq.trans (matchFirst_append (litNoPref_sound (by decide) hB_trivial)) ?_
  refine Eq.trans
    (matchFirst_append (suffClean_plainField headerPrevSummary_eq hashPlain ht.2.1)) ?_
  refine Eq.trans (matchFirst_append (litNoPref_sound (by decide) hB_trivial)) ?_
  refine Eq.trans
    (matchFirst_append (suffClean_plainField headerPrevSummary_eq hashPlain hm.2.1)) ?_
  refine Eq.trans (matchFirst_append (litNoPref_sound (by decide) hB_trivial)) ?_
  refine Eq.trans
    (matchFirst_append (suffClean_plainField headerPrevSummary_eq hashPlain hp.2.1)) ?_
  refine Eq.trans (matchFirst_append (litNoPref_sound (by decide) hB_trivial)) ?_
  apply matchFirst_here (by decide)
  rw [show str "\n\n## This Commit's Contribution\n" =
    str "\n" ++ str "\n## This Commit's Contribution\n" by decide, List.append_assoc]
  refine Eq.trans (capLen_append ?obl1) ?_
  case obl1 =>
    intro a' hsuf hne
    show stopThisCommit _ = false
    simp only [stopThisCommit]
    refine ?_
    have hsc : SuffClean (str "\n## This Commit") s
        (str "\n" ++ (str "\n## This Commit's Contribution\n" ++ (c ++ str "\n\n"))) := by
      rw [thisCommitPat_eq]
      apply suffClean_pair hs.2.2.2.2
      intro bh hbh he
      have h0 : (str "\n" ++ (str "\n## This Commit's Contribution\n" ++
          (c ++ str "\n\n"))).head? = some '\n' := head?_append_ne (by decide)
      rw [h0] at hbh
      have : '\n' = bh := by simpa using hbh
      rw [← this] at he
      cases he
    exact hsc a' hsuf hne
  have hinner : capLen stopThisCommit (str "\n" ++
      (str "\n## This Commit's Contribution\n" ++ (c ++ str "\n\n"))) = some (str "\n") := by
    refine Eq.trans (capLen_append ?obl2) ?_
    case obl2 =>
      intro a' hsuf hne
      rcases suffix_singleton hsuf with h0 | h0
      · exact absurd h0 hne
      · rw [h0]
        show stopThisCommit _ = false
        simp only [stopThisCommit]
        rw [show ('\n' :: ([] : Str)) ++ (str "\n## This Commit's Contribution\n" ++
            (c ++ str "\n\n")) =
          str "\n\n## This Commit's Contribution\n" ++ (c ++ str "\n\n") by
            rw [← List.append_assoc]; rfl]
        rw [isPrefixOf_append_of_length_le (by decide)]
        decide
    have hstop : capLen stopThisCommit
        (str "\n## This Commit's Contribution\n" ++ (c ++ str "\n\n")) = some [] := by
      apply capLen_stop_true
      show stopThisCommit _ = true
      simp only [stopThisCommit]
      exact isPrefixOf_append_left (by decide)
    rw [hstop]
    rfl
  rw [hinner]
  rfl

theorem matchFirst_contrib_blockTail {h t m p s c : Str}
    (hh : wfFieldP h) (ht : wfFieldP t) (hm : wfFieldP m) (hp : wfFieldP p)
    (hs : wfSummaryP s) (hc : wfFieldP c) :
    matchFirst headerContribution stopContrib (blockTail h t m p s c) =
      some (c ++ str "\n") := by
  rw [blockTail]
  rw [show str "\n\n## This Commit's Contribution\n" = str "\n\n" ++ headerContribution by decide,
    List.append_assoc]
  refine Eq.trans (matchFirst_append (litNoPref_sound (by decide) hB_trivial)) ?_
  refine Eq.trans
    (matchFirst_append (suffClean_plainField headerContribution_eq hashPlain hh.2.1)) ?_
  refine Eq.trans (matchFirst_append (litNoPref_sound (by decide) hB_trivial)) ?_
  refine Eq.trans
    (matchFirst_append (suffClean_plainField headerContribution_eq hashPlain ht.2.1)) ?_
  refine Eq.trans (matchFirst_append (litNoPref_sound (by decide) hB_trivial)) ?_
  refine Eq.trans
    (matchFirst_append (suffClean_plainField headerContribution_eq hashPlain hm.2.1)) ?_
  refine Eq.trans (matchFirst_append (litNoPref_sound (by decide) hB_trivial)) ?_
  refine Eq.trans
    (matchFirst_append (suffClean_plainField headerContribution_eq hashPlain hp.2.1)) ?_
  refine Eq.trans (matchFirst_append (litNoPref_sound (by decide) hB_trivial)) ?_
  refine Eq.trans (matchFirst_append ?hsseg) ?_
  case hsseg =>
    rw [headerContribution_eq]
    exact suffClean_head_ne (wfSummary_no_hash hs)
  refine Eq.trans (matchFirst_append (litNoPref_sound (by decide) hB_trivial)) ?_
  apply matchFirst_here (by decide)
  refine Eq.trans (capLen_append ?oblc) ?_
  case oblc =>
    intro a' hsuf hne
    have hpx : (str "\n---").isPrefixOf (a' ++ str "\n\n") = false := by
      have hsc : SuffClean (str "\n---") c (str "\n\n") :=
        suffClean_plainField nlDashPat_eq (by decide) hc.2.1
      exact hsc a' hsuf hne
    have hl : 1 ≤ a'.length := by
      cases a' with
      | nil => exact absurd rfl hne
      | cons _ _ => simp
    have hy1 : a' ++ str "\n\n" ≠ str "\n" := by
      intro hcontra
      have := congrArg List.length hcontra
      simp [str, List.length_append] at this
    have hy2 : a' ++ str "\n\n" ≠ [] := by
      intro hcontra
      have := congrArg List.length hcontra
      simp [str, List.length_append] at this
    simp [stopContrib, hpx, hy1, hy2]
  rw [show capLen stopContrib (str "\n\n") = some (str "\n") by decide]
  rfl

/-! ## The one-step summary fold -/

theorem renderCommitBlock_factor (h t m p s c : Str) :
    renderCommitBlock h t m p s c = str "\n" ++ (commitSep ++ blockTail h t m p s c) := by
  rw [renderCommitBlock, blockTail,
    show str "\n---\n**Commit**: " = str "\n" ++ (commitSep ++ str " ") by decide]
  simp [List.append_assoc]

theorem blockTail_ne_nil {h t m p s c : Str} : blockTail h t m p s c ≠ [] := by
  rw [blockTail, show str " " = [' '] from rfl]
  simp

theorem prevPart_blockTail {h t m p s c : Str}
    (hh : wfFieldP h) (ht : wfFieldP t) (hm : wfFieldP m) (hp : wfFieldP p)
    (hs : wfSummaryP s) (hc : wfFieldP c) :
    prevPartOf (blockTail h t m p s c) = s := by
  rw [prevPartOf, matchFirst_prev_blockTail hh ht hm hp hs hc]
  simp [trimChars_append_nl hs.1 hs.2.1]

theorem contribPart_blockTail {h t m p s c : Str}
    (hh : wfFieldP h) (ht : wfFieldP t) (hm : wfFieldP m) (hp : wfFieldP p)
    (hs : wfSummaryP s) (hc : wfFieldP c) :
    contribPartOf (blockTail h t m p s c) = c := by
  rw [contribPartOf, matchFirst_contrib_blockTail hh ht hm hp hs hc]
  simp [trimChars_append_nl hc.1 hc.2.2]

/-- The cumulative-fold step: on any history ending with a well-formed
commit block whose recorded previous summary is s and contribution is c,
the next commit's computed previous summary is the fold of s and c. -/
theorem summary_step {X h t m p s c : Str}
    (hh : wfFieldP h) (ht : wfFieldP t) (hm : wfFieldP m) (hp : wfFieldP p)
    (hs : wfSummaryP s) (hc : wfFieldP c) :
    computePreviousSummary (X ++ renderCommitBlock h t m p s c) = combineSummary s c := by
  rw [renderCommitBlock_factor, ← List.append_assoc]
  have hlast : lastCommitChunk ((X ++ str "\n") ++ (commitSep ++ blockTail h t m p s c)) =
      some (blockTail h t m p s c) :=
    lastCommitChunk_append_block (sepFree_blockTail hh ht hm hp hs hc) blockTail_ne_nil
  rw [computePreviousSummary, hlast]
  show combineSummary (prevPartOf (blockTail h t m p s c))
    (contribPartOf (blockTail h t m p s c)) = combineSummary s c
  rw [prevPart_blockTail hh ht hm hp hs hc, contribPart_blockTail hh ht hm hp hs hc]

/-! ## Parsing the initial documents -/

theorem no_prefix_all_suffixes {pat doc : Str} {p0 : Char} {pr : Str} (hpat : pat = p0 :: pr)
    (h : SuffClean pat doc []) : ∀ y, y <:+ doc → pat.isPrefixOf y = false := by
  intro y hy
  cases hyn : y with
  | nil => rw [hpat]; simp [List.isPrefixOf]
  | cons ch t =>
    have := h y hy (by rw [hyn]; simp)
    rwa [List.append_nil, hyn] at this

theorem stopSection_false_of {y : Str} (hp : (str "\n## ").isPrefixOf y = false)
    (h0 : y ≠ []) : stopSection y = false := by
  cases y with
  | nil => exact absurd rfl h0
  | cons c t => simp [stopSection, hp]

theorem nlSectionPat_eq : str "\n## " = '\n' :: str "## " := by decide

theorem nlPlain : plainChar '\n' = false := by decide

theorem computePreviousSummary_mainInitDoc {ts : Str} (hts : wfFieldP ts) :
    computePreviousSummary (mainInitDoc ts) = [] := by
  have hSF : SepFree (mainInitDoc ts) := by
    apply sepFree_of_suffClean
    rw [mainInitDoc]
    apply suffClean_append (litNoPref_sound (by decide) hB_trivial)
    apply suffClean_append (suffClean_plainField commitSep_eq (by decide) hts.2.1)
    exact @litNoPref_sound (fun _ => false) _ _ _ (by decide) hB_nil
  have hne : mainInitDoc ts ≠ [] := by
    rw [mainInitDoc]
    simp [str]
  have hlast : lastCommitChunk (mainInitDoc ts) = some (mainInitDoc ts) :=
    lastCommitChunk_noSep hSF hne
  have hstop1 : ∀ y, y <:+ mainInitDoc ts → stopThisCommit y = false := by
    have hsc : SuffClean (str "\n## This Commit") (mainInitDoc ts) [] := by
      rw [mainInitDoc]
      apply suffClean_append (litNoPref_sound (by decide) hB_trivial)
      apply suffClean_append (suffClean_plainField thisCommitPat_eq nlPlain hts.2.1)
      exact @litNoPref_sound (fun _ => false) _ _ _ (by decide) hB_nil
    intro y hy
    show (str "\n## This Commit").isPrefixOf y = false
    exact no_prefix_all_suffixes thisCommitPat_eq hsc y hy
  have hnoH2 : ∀ y, y <:+ mainInitDoc ts → headerContribution.isPrefixOf y = false := by
    have hsc : SuffClean headerContribution (mainInitDoc ts) [] := by
      rw [mainInitDoc]
      apply suffClean_append (litNoPref_sound (by decide) hB_trivial)
      apply suffClean_append (suffClean_plainField headerContribution_eq hashPlain hts.2.1)
      exact @litNoPref_sound (fun _ => false) _ _ _ (by decide) hB_nil
    exact fun y hy => no_prefix_all_suffixes headerContribution_eq hsc y hy
  have hprev : prevPartOf (mainInitDoc ts) = [] := by
    rw [prevPartOf, matchFirst_none_of_no_stop hstop1]
    rfl
  have hcontrib : contribPartOf (mainInitDoc ts) = [] := by
    rw [contribPartOf, matchFirst_none_of_no_header hnoH2]
    rfl
  rw [computePreviousSummary, hlast]
  show combineSummary (prevPartOf (mainInitDoc ts)) (contribPartOf (mainInitDoc ts)) = []
  rw [hprev, hcontrib]
  rfl

theorem computePreviousSummary_branchInitDoc {n p ts : Str}
    (hn : wfFieldP n) (hp : wfFieldP p) (hts : wfFieldP ts) :
    computePreviousSummary (branchInitDoc n p ts) = [] := by
  have hSF : SepFree (branchInitDoc n p ts) := by
    apply sepFree_of_suffClean
    rw [branchInitDoc]
    apply suffClean_append (litNoPref_sound (by decide) hB_trivial)
    apply suffClean_append (suffClean_plainField commitSep_eq (by decide) hn.2.1)
    apply suffClean_append (litNoPref_sound (by decide) hB_trivial)
    apply suffClean_append (suffClean_plainField commitSep_eq (by decide) hp.2.1)
    apply suffClean_append (litNoPref_sound (by decide) hB_trivial)
    apply suffClean_append (suffClean_plainField commitSep_eq (by decide) hts.2.1)
    exact @litNoPref_sound (fun _ => false) _ _ _ (by decide) hB_nil
  have hne : branchInitDoc n p ts ≠ [] := by
    rw [branchInitDoc]
    simp [str]
  have hlast : lastCommitChunk (branchInitDoc n p ts) = some (branchInitDoc n p ts) :=
    lastCommitChunk_noSep hSF hne
  have hstop1 : ∀ y, y <:+ branchInitDoc n p ts → stopThisCommit y = false := by
    have hsc : SuffClean (str "\n## This Commit") (branchInitDoc n p ts) [] := by
      rw [branchInitDoc]
      apply suffClean_append (litNoPref_sound (by decide) hB_trivial)
      apply suffClean_append (suffClean_plainField thisCommitPat_eq nlPlain hn.2.1)
      apply suffClean_append
        (@litNoPref_sound plainChar _ _ _ (by decide) (hB_plainField' hp.1 hp.2.1))
      apply suffClean_append (suffClean_plainField thisCommitPat_eq nlPlain hp.2.1)
      apply suffClean_append (litNoPref_sound (by decide) hB_trivial)
      apply suffClean_append (suffClean_plainField thisCommitPat_eq nlPlain hts.2.1)
      exact @litNoPref_sound (fun _ => false) _ _ _ (by decide) hB_nil
    intro y hy
    show (str "\n## This Commit").isPrefixOf y = false
    exact no_prefix_all_suffixes thisCommitPat_eq hsc y hy
  have hnoH2 : ∀ y, y <:+ branchInitDoc n p ts → headerContribution.isPrefixOf y = false := by
    have hsc : SuffClean headerContribution (branchInitDoc n p ts) [] := by
      rw [branchInitDoc]
      apply suffClean_append (litNoPref_sound (by decide) hB_trivial)
      apply suffClean_append (suffClean_plainField headerContribution_eq hashPlain hn.2.1)
      apply suffClean_append (litNoPref_sound (by decide) hB_trivial)
      apply suffClean_append (suffClean_plainField headerContribution_eq hashPlain hp.2.1)
      apply suffClean_append (litNoPref_sound (by decide) hB_trivial)
      apply suffClean_append (suffClean_plainField headerContribution_eq hashPlain hts.2.1)
      exact @litNoPref_sound (fun _ => false) _ _ _ (by decide) hB_nil
    exact fun y hy => no_prefix_all_suffixes headerContribution_eq hsc y hy
  have hprev : prevPartOf (branchInitDoc n p ts) = [] := by
    rw [prevPartOf, matchFirst_none_of_no_stop hstop1]
    rfl
  have hcontrib : contribPartOf (branchInitDoc n p ts) = [] := by
    rw [contribPartOf, matchFirst_none_of_no_header hnoH2]
    rfl
  rw [computePreviousSummary, hlast]
  show combineSummary (prevPartOf (branchInitDoc n p ts)) (contribPartOf (branchInitDoc n p ts)) = []
  rw [hprev, hcontrib]
  rfl

/-! ## Purpose extraction from main's history -/

theorem headerPurpose_eq : headerPurpose = '#' :: str "# Branch Purpose\n" := by decide

theorem matchFirst_purpose_main {ts REST : Str} :
    matchFirst headerPurpose stopSection (mainInitDoc ts ++ REST) =
      some (str "Main development branch" ++ str "\n") := by
  have hfactor : mainInitDoc ts ++ REST = str "# Branch: main\n\n" ++ (headerPurpose ++
      (str "Main development branch" ++ (str "\n" ++ (str "\n## " ++
      (str "Previous Progress Summary\nInitialized at " ++ ((ts ++ str "\n\n---\n") ++ REST)))))) := by
    rw [mainInitDoc]
    rw [show str "# Branch: main\n\n## Branch Purpose\nMain development branch\n\n## Previous Progress Summary\nInitialized at " =
      str "# Branch: main\n\n" ++ (headerPurpose ++ (str "Main development branch" ++
      (str "\n" ++ (str "\n## " ++ str "Previous Progress Summary\nInitialized at ")))) by decide]
    simp [List.append_assoc]
  rw [hfactor]
  refine Eq.trans (matchFirst_append (litNoPref_sound (by decide) hB_trivial)) ?_
  apply matchFirst_here (by decide)
  refine Eq.trans (capLen_append ?oblP) ?_
  case oblP =>
    intro a' hsuf hne
    apply stopSection_false_of
    · have hsc : SuffClean (str "\n## ") (str "Main development branch")
          (str "\n" ++ (str "\n## " ++ (str "Previous Progress Summary\nInitialized at " ++
          ((ts ++ str "\n\n---\n") ++ REST)))) := litNoPref_sound (by decide) hB_trivial
      exact hsc a' hsuf hne
    · exact List.append_ne_nil_of_left_ne_nil hne _
  have hinner : capLen stopSection (str "\n" ++ (str "\n## " ++
      (str "Previous Progress Summary\nInitialized at " ++ ((ts ++ str "\n\n---\n") ++ REST)))) =
      some (str "\n") := by
    refine Eq.trans (capLen_append ?oblQ) ?_
    case oblQ =>
      intro a' hsuf hne
      rcases suffix_singleton hsuf with h0 | h0
      · exact absurd h0 hne
      · rw [h0]
        apply stopSection_false_of
        · rw [show ('\n' :: ([] : Str)) ++ (str "\n## " ++
              (str "Previous Progress Summary\nInitialized at " ++ ((ts ++ str "\n\n---\n") ++ REST))) =
            str "\n\n## " ++ (str "Previous Progress Summary\nInitialized at " ++
              ((ts ++ str "\n\n---\n") ++ REST)) by rw [← List.append_assoc]; rfl]
          rw [isPrefixOf_append_of_length_le (by decide)]
          decide
        · simp
    have hstop : capLen stopSection (str "\n## " ++
        (str "Previous Progress Summary\nInitialized at " ++ ((ts ++ str "\n\n---\n") ++ REST))) =
        some [] := by
      apply capLen_stop_true
      have : (str "\n## ").isPrefixOf (str "\n## " ++
          (str "Previous Progress Summary\nInitialized at " ++
          ((ts ++ str "\n\n---\n") ++ REST))) = true := isPrefixOf_append_left (by decide)
      simp [stopSection, this]
    rw [hstop]
    rfl
  rw [hinner]
  rfl

theorem extractPurpose_main {d ts REST : Str} :
    extractPurposeOr d (mainInitDoc ts ++ REST) = str "Main development branch" := by
  rw [extractPurposeOr, matchFirst_purpose_main]
  show (if trimChars (str "Main development branch" ++ str "\n") = [] then d
    else trimChars (str "Main development branch" ++ str "\n")) = str "Main development branch"
  rw [show trimChars (str "Main development branch" ++ str "\n") =
    str "Main development branch" by decide]
  simp [str]

/-! ## Well-formedness of the evolving summary -/

theorem trimStableB_of_ends {x : Str} {ch cl : Char} (hhead : x.head? = some ch)
    (hwh : isWsChar ch = false) (hlast : x.getLast? = some cl) (hwl : isWsChar cl = false) :
    trimStableB x = true := by
  simp [trimStableB, hhead, hlast, hwh, hwl]

theorem getLast?_append_ne {x y : Str} {ch : Char} (h : y.getLast? = some ch) :
    (x ++ y).getLast? = some ch := by
  rw [List.getLast?_append, h]
  rfl

theorem all_no_hash_star_of_plain {x : Str} (h : x.all plainChar = true) :
    x.all (fun c => !(c = '#' || c = '*')) = true := by
  rw [List.all_eq_true] at h ⊢
  intro ch hch
  have := plainChar_spec (h ch hch)
  simp [this.2.2.1, this.2.2.2.1]

theorem noPair_of_plain_fst {a b : Char} {x : Str} (ha : plainChar a = false)
    (h : x.all plainChar = true) : noPair a b x = true := by
  apply noPair_of_all_ne_fst
  intro ch hch he
  have := List.all_eq_true.mp h ch hch
  rw [he, ha] at this
  cases this

theorem wfSummary_initial : wfSummaryP (str "Initial commit") := by
  refine ⟨by decide, by decide, by decide, by decide, by decide⟩

theorem wfSummary_extend {s c : Str} (hs : wfSummaryP s) (hc : wfFieldP c) :
    wfSummaryP (s ++ str "\n- " ++ c) := by
  obtain ⟨hsne, hstrim, hsall, hsdd, hsnh⟩ := hs
  obtain ⟨hcne, hcall, hctrim⟩ := hc
  obtain ⟨sh, st, hse⟩ : ∃ sh st, s = sh :: st := by
    cases s with
    | nil => exact absurd rfl hsne
    | cons a b => exact ⟨a, b, rfl⟩
  obtain ⟨cl, hcl⟩ : ∃ cl, c.getLast? = some cl := by
    cases hcc : c with
    | nil => exact absurd hcc hcne
    | cons a b => exact ⟨(a :: b).getLast (by simp), List.getLast?_eq_getLast _ _⟩
  refine ⟨?_, ?_, ?_, ?_, ?_⟩
  · exact List.append_ne_nil_of_right_ne_nil _ hcne
  · have hh : ((s ++ str "\n- ") ++ c).head? = some sh := by
      apply head?_append_ne
      apply head?_append_ne
      rw [hse]
      rfl
    have hl : ((s ++ str "\n- ") ++ c).getLast? = some cl := getLast?_append_ne hcl
    refine trimStableB_of_ends hh ?_ hl ?_
    · exact trimStableB_head_false (by rw [← hse]; exact hstrim)
    · exact trimStableB_last_false hctrim hcl
  · simp only [List.all_append, Bool.and_eq_true]
    exact ⟨⟨hsall, by decide⟩, all_no_hash_star_of_plain hcall⟩
  · apply noPair_append
    · apply noPair_append hsdd (by decide)
      intro xl _ yh hyh hpair
      have h0 : (str "\n- ").head? = some '\n' := by decide
      rw [h0] at hyh
      have : yh = '\n' := (Option.some.inj hyh).symm
      rw [this] at hpair
      exact absurd hpair.2 (by decide)
    · exact noPair_of_plain_fst (by decide) hcall
    · intro xl hxl yh _ hpair
      have : xl = ' ' := by
        have := @getLast?_append_ne s (str "\n- ") ' ' (by decide)
        rw [this] at hxl
        simpa using hxl.symm
      rw [this] at hpair
      exact absurd hpair.1 (by decide)
  · apply noPair_append
    · apply noPair_append hsnh (by decide)
      intro xl _ yh hyh hpair
      have h0 : (str "\n- ").head? = some '\n' := by decide
      rw [h0] at hyh
      have : yh = '\n' := (Option.some.inj hyh).symm
      rw [this] at hpair
      exact absurd hpair.2 (by decide)
    · exact noPair_of_plain_fst nlPlain hcall
    · intro xl hxl yh _ hpair
      have : xl = ' ' := by
        have := @getLast?_append_ne s (str "\n- ") ' ' (by decide)
        rw [this] at hxl
        simpa using hxl.symm
      rw [this] at hpair
      exact absurd hpair.1 (by decide)

theorem combineSummary_of_ne {s c : Str} (hs : s ≠ []) (hc : c ≠ []) :
    combineSummary s c = s ++ str "\n- " ++ c := by
  simp [combineSummary, hs, hc]

/-! ## The cumulative fold over repeated commits on main -/

theorem mainDocModel_snd_general : ∀ (cs : List Str) (d s : Str),
    (cs.foldl mainDocModelStep (d, s)).2 = s ++ (cs.map (fun c => str "\n- " ++ c)).flatten := by
  intro cs
  induction cs with
  | nil => intro d s; simp
  | cons c cs' ih =>
    intro d s
    simp only [List.foldl_cons, List.map_cons, List.flatten_cons]
    rw [ih]
    show (s ++ str "\n- " ++ c) ++ _ = _
    simp [List.append_assoc, mainDocModelStep]

theorem mainDocModel_snd (t0 : Str) (cs : List Str) :
    (mainDocModel t0 cs).2 = str "Initial commit" ++ (cs.map (fun c => str "\n- " ++ c)).flatten :=
  mainDocModel_snd_general cs _ _

theorem mainDocModel_snd_wf_general : ∀ (cs : List Str) (d s : Str), wfSummaryP s →
    (∀ c ∈ cs, wfFieldP c) → wfSummaryP (cs.foldl mainDocModelStep (d, s)).2 := by
  intro cs
  induction cs with
  | nil => intro d s hs _; exact hs
  | cons c cs' ih =>
    intro d s hs hwf
    simp only [List.foldl_cons]
    exact ih _ _ (wfSummary_extend hs (hwf c (by simp)))
      (fun x hx => hwf x (List.mem_cons_of_mem c hx))

theorem mainDocModel_snd_wf (t0 : Str) (cs : List Str) (hwf : ∀ c ∈ cs, wfFieldP c) :
    wfSummaryP (mainDocModel t0 cs).2 :=
  mainDocModel_snd_wf_general cs _ _ wfSummary_initial hwf

theorem mainDocModel_fst_shape (t0 : Str) : ∀ cs : List Str,
    ∃ REST, (mainDocModel t0 cs).1 = mainInitDoc t0 ++ REST := by
  intro cs
  induction cs using List.reverseRecOn with
  | nil => exact ⟨[], by simp [mainDocModel]⟩
  | append_singleton cs' c ih =>
    obtain ⟨REST, hR⟩ := ih
    refine ⟨REST ++ renderCommitBlock (str "h") (str "t") (str "M")
      (str "Main development branch") (mainDocModel t0 cs').2 c, ?_⟩
    rw [mainDocModel, List.foldl_append]
    show (mainDocModelStep (mainDocModel t0 cs') c).1 = _
    rw [mainDocModelStep]
    show (mainDocModel t0 cs').1 ++ _ = _
    rw [hR, List.append_assoc]

theorem mainDocModel_append_one (t0 : Str) (cs : List Str) (c : Str) :
    mainDocModel t0 (cs ++ [c]) =
      ((mainDocModel t0 cs).1 ++ renderCommitBlock (str "h") (str "t") (str "M")
        (str "Main development branch") (mainDocModel t0 cs).2 c,
       (mainDocModel t0 cs).2 ++ str "\n- " ++ c) := by
  rw [mainDocModel, List.foldl_append]
  rfl

theorem mainStateAfter_append_one (t0 : Str) (cs : List Str) (c : Str) :
    mainStateAfter t0 (cs ++ [c]) =
      (commitStep (mainStateAfter t0 cs) (str "M") c false (str "h") (str "t")).1 := by
  rw [mainStateAfter, List.foldl_append]
  rfl

theorem commitStep_main_state {st : GccState} {d : Str} (hptr : st.currentBranchFile = none)
    (hdoc : st.commitDocs (str "main") = some d) (msg contrib hash ts : Str) :
    (commitStep st msg contrib false hash ts).1 =
      { st with
        commitDocs := updF st.commitDocs (str "main")
          (some (d ++ renderCommitBlock hash ts msg
            (extractPurposeOr (str "Main development branch") d)
            (if computePreviousSummary d = [] then str "Initial commit"
             else computePreviousSummary d) contrib))
        logDocs := updF st.logDocs (str "main") (some []) } := by
  have hbr : getCurrentBranch st = str "main" := by rw [getCurrentBranch, hptr]
  simp only [commitStep, hbr, hdoc, Option.getD_some, if_pos rfl, Bool.false_eq_true, if_false]
  simp

theorem wfField_h : wfFieldP (str "h") := ⟨by decide, by decide, by decide⟩

theorem wfField_t : wfFieldP (str "t") := ⟨by decide, by decide, by decide⟩

theorem wfField_M : wfFieldP (str "M") := ⟨by decide, by decide, by decide⟩

theorem wfField_MDB : wfFieldP (str "Main development branch") := ⟨by decide, by decide, by decide⟩

theorem mainStateAfter_inv (t0 : Str) (ht0 : wfFieldP t0) : ∀ cs : List Str,
    (∀ c ∈ cs, wfFieldP c) →
    (mainStateAfter t0 cs).currentBranchFile = none ∧
    (mainStateAfter t0 cs).commitDocs (str "main") = some (mainDocModel t0 cs).1 ∧
    computePreviousSummary (mainDocModel t0 cs).1 =
      (if cs = [] then [] else (mainDocModel t0 cs).2) := by
  intro cs
  induction cs using List.reverseRecOn with
  | nil =>
    intro _
    refine ⟨rfl, ?_, ?_⟩
    · show (if str "main" = str "main" then some (mainInitDoc t0) else none) = _
      rw [if_pos rfl]
      rfl
    · show computePreviousSummary (mainInitDoc t0) = []
      exact computePreviousSummary_mainInitDoc ht0
  | append_singleton cs' c ih =>
    intro hwf
    have hwf' : ∀ x ∈ cs', wfFieldP x := fun x hx => hwf x (by simp [hx])
    have hwfc : wfFieldP c := hwf c (by simp)
    obtain ⟨hptr, hdoc, hsum⟩ := ih hwf'
    have hswf : wfSummaryP (mainDocModel t0 cs').2 := mainDocModel_snd_wf t0 cs' hwf'
    have hrecorded : (if computePreviousSummary (mainDocModel t0 cs').1 = []
        then str "Initial commit" else computePreviousSummary (mainDocModel t0 cs').1) =
        (mainDocModel t0 cs').2 := by
      rw [hsum]
      by_cases hcs : cs' = []
      · rw [if_pos hcs, if_pos rfl]
        rw [hcs]
        rfl
      · rw [if_neg hcs, if_neg hswf.1]
    have hpurpose : extractPurposeOr (str "Main development branch") (mainDocModel t0 cs').1 =
        str "Main development branch" := by
      obtain ⟨REST, hR⟩ := mainDocModel_fst_shape t0 cs'
      rw [hR]
      exact extractPurpose_main
    have hnewdoc : (mainDocModel t0 (cs' ++ [c])).1 =
        (mainDocModel t0 cs').1 ++ renderCommitBlock (str "h") (str "t") (str "M")
          (str "Main development branch") (mainDocModel t0 cs').2 c := by
      rw [mainDocModel_append_one]
    rw [mainStateAfter_append_one, commitStep_main_state hptr hdoc, hpurpose, hrecorded]
    refine ⟨hptr, ?_, ?_⟩
    · rw [hnewdoc]
      show updF (mainStateAfter t0 cs').commitDocs (str "main")
        (some ((mainDocModel t0 cs').1 ++ renderCommitBlock (str "h") (str "t") (str "M")
          (str "Main development branch") (mainDocModel t0 cs').2 c)) (str "main") = _
      rw [updF]
      simp
    · rw [hnewdoc]
      rw [summary_step wfField_h wfField_t wfField_M wfField_MDB hswf hwfc]
      rw [combineSummary_of_ne hswf.1 hwfc.1]
      rw [if_neg (by simp)]
      rw [mainDocModel_append_one]

theorem mainAfter_summary (t0 : Str) (ht0 : wfFieldP t0) (cs : List Str)
    (hwf : ∀ c ∈ cs, wfFieldP c) (hne : cs ≠ []) :
    computePreviousSummary (((mainStateAfter t0 cs).commitDocs (str "main")).getD []) =
      str "Initial commit" ++ (cs.map (fun c => str "\n- " ++ c)).flatten := by
  obtain ⟨_, hdoc, hsum⟩ := mainStateAfter_inv t0 ht0 cs hwf
  rw [hdoc, Option.getD_some, hsum, if_neg hne, mainDocModel_snd]

/-! ## Claim theorems -/

/-- C1: the previous-progress summary recorded in commit k+1 is the fold
of commit k's recorded previous-summary and contribution (previous plus
a newline bullet of the contribution; a bare bullet when there is no
previous summary; the bare previous text when no contribution parsed),
for any history ending in a well-formed commit block; on each of the
three possible initial documents (absent file, main's first-run header,
a created branch's header) the computed summary is empty, so the first
commit records the literal "Initial commit" (the rendering if-expression
of index.ts line 172); and on a fresh main, commit(A, x) followed by
commit(B, y) yields a second block whose recorded previous-summary is
"Initial commit\n- x". -/
theorem c1_previous_summary_fold :
    (∀ X h t m p s c : Str, wfFieldP h → wfFieldP t → wfFieldP m → wfFieldP p →
      wfSummaryP s → wfFieldP c →
      computePreviousSummary (X ++ renderCommitBlock h t m p s c) = combineSummary s c) ∧
    (∀ ts : Str, wfFieldP ts → computePreviousSummary (mainInitDoc ts) = []) ∧
    (∀ n p ts : Str, wfFieldP n → wfFieldP p → wfFieldP ts →
      computePreviousSummary (branchInitDoc n p ts) = []) ∧
    computePreviousSummary [] = [] ∧
    scenarioState2.commitDocs (str "main") =
      some (mainInitDoc (str "T0") ++
        renderCommitBlock (str "h1") (str "T1") (str "A") (str "Main development branch")
          (str "Initial commit") (str "x") ++
        renderCommitBlock (str "h2") (str "T2") (str "B") (str "Main development branch")
          (str "Initial commit\n- x") (str "y")) := by
  refine ⟨?_, ?_, ?_, by decide, by decide⟩
  · intro X h t m p s c hh ht hm hp hs hc
    exact summary_step hh ht hm hp hs hc
  · intro ts hts
    exact computePreviousSummary_mainInitDoc hts
  · intro n p ts hn hp hts
    exact computePreviousSummary_branchInitDoc hn hp hts

/-- Witness for C1: the fold statement applied at a concrete block. -/
theorem c1_previous_summary_fold_witness :
    computePreviousSummary ([] ++ renderCommitBlock (str "h1") (str "T1") (str "A")
      (str "p") (str "Initial commit") (str "x")) =
      combineSummary (str "Initial commit") (str "x") :=
  c1_previous_summary_fold.1 [] (str "h1") (str "T1") (str "A") (str "p")
    (str "Initial commit") (str "x")
    ⟨by decide, by decide, by decide⟩ ⟨by decide, by decide, by decide⟩
    ⟨by decide, by decide, by decide⟩ ⟨by decide, by decide, by decide⟩
    ⟨by decide, by decide, by decide, by decide, by decide⟩
    ⟨by decide, by decide, by decide⟩

/-- C2 as stated is false on the code: after one commit with
contribution x on a fresh main, the summary computed for commit 2 is
"Initial commit\n- x", not the spec's newline-joined fold "x". -/
theorem c2_counterexample :
    computePreviousSummary ((scenarioState1.commitDocs (str "main")).getD []) ≠
      specJoinedFold [str "x"] ∧
    specJoinedFold [str "x"] = str "x" ∧
    computePreviousSummary ((scenarioState1.commitDocs (str "main")).getD []) =
      str "Initial commit\n- x" := by
  refine ⟨by decide, by decide, by decide⟩

/-- C2 amended: for N ≥ 1 commits with well-formed contributions c1..cN
on a fresh main, the summary computed for commit N+1 is the literal
"Initial commit" followed by the newline-joined bullets
"- c1", ..., "- cN". -/
theorem c2_amended (t0 : Str) (cs : List Str) (ht0 : wfFieldP t0)
    (hwf : ∀ c ∈ cs, wfFieldP c) (hne : cs ≠ []) :
    computePreviousSummary (((mainStateAfter t0 cs).commitDocs (str "main")).getD []) =
      str "Initial commit" ++ (cs.map (fun c => str "\n- " ++ c)).flatten :=
  mainAfter_summary t0 ht0 cs hwf hne

/-- Witness for C2 amended: two commits with contributions x then y. -/
theorem c2_amended_witness :
    computePreviousSummary (((mainStateAfter (str "T0") [str "x", str "y"]).commitDocs
      (str "main")).getD []) =
      str "Initial commit" ++ (([str "x", str "y"]).map (fun c => str "\n- " ++ c)).flatten :=
  c2_amended (str "T0") [str "x", str "y"] ⟨by decide, by decide, by decide⟩
    (by intro c hc; fin_cases hc <;> exact ⟨by decide, by decide, by decide⟩) (by decide)

/-- Helper: a commit writes an empty log for the active branch. -/
theorem commitStep_clears_log (st : GccState) (message contribution : Str)
    (updateRoadmap : Bool) (hash ts : Str) :
    (commitStep st message contribution updateRoadmap hash ts).1.logDocs
      (getCurrentBranch st) = some [] := by
  rw [commitStep]
  split
  · simp [updF]
  · simp [updF]

/-- C3: a commit always clears the active branch's trace log, whatever
it contained before and whatever the arguments were. -/
theorem c3_commit_clears_log (st : GccState) (message contribution : Str)
    (updateRoadmap : Bool) (hash ts : Str) :
    (commitStep st message contribution updateRoadmap hash ts).1.logDocs
      (getCurrentBranch st) = some [] :=
  commitStep_clears_log st message contribution updateRoadmap hash ts

/-- C4 as stated is false on the code: when the source branch is also
the active destination (merging a branch into itself), the merge appends
its merge entry to the source's own commit history, so the source's
documents are not byte-identical afterwards.  Concretely, with main
active, merge(main, s) changes main's commit.md. -/
theorem c4_counterexample :
    (mergeStep scenarioState1 (str "main") (str "s") (str "T9")).1.commitDocs (str "main") ≠
      scenarioState1.commitDocs (str "main") := by
  decide

/-- C4 amended: a merge leaves the source branch's commit-history and
trace-log documents unchanged provided the source is not the active
destination branch. -/
theorem c4_amended (st : GccState) (src summary ts : Str)
    (hne : src ≠ getCurrentBranch st) :
    (mergeStep st src summary ts).1.commitDocs src = st.commitDocs src ∧
    (mergeStep st src summary ts).1.logDocs src = st.logDocs src := by
  cases hd : st.commitDocs src with
  | none => simp [mergeStep, hd]
  | some d => simp [mergeStep, hd, updF, hne]

/-- Witness for C4 amended: merging the (absent) branch exp while main
is active leaves exp's documents unchanged. -/
theorem c4_amended_witness :
    (mergeStep scenarioState1 (str "exp") (str "s") (str "T9")).1.commitDocs (str "exp") =
      scenarioState1.commitDocs (str "exp") ∧
    (mergeStep scenarioState1 (str "exp") (str "s") (str "T9")).1.logDocs (str "exp") =
      scenarioState1.logDocs (str "exp") :=
  c4_amended scenarioState1 (str "exp") (str "s") (str "T9") (by decide)

/-- C5: the code violates the claim.  After committing contribution x on
main, creating branch exp, committing contribution y on exp, switching
back to main and merging exp, the summary computed for main's next
commit folds the last commit block embedded in the merge entry (exp's
commit, contribution y) instead of main's own most recent commit
(contribution x): before the merge the computed summary is
"Initial commit\n- x"; after it, "Initial commit\n- y". -/
theorem c5_merge_block_pollutes_fold :
    computePreviousSummary ((c5StateD.commitDocs (str "main")).getD []) =
      str "Initial commit\n- x" ∧
    computePreviousSummary ((c5StateE.commitDocs (str "main")).getD []) =
      str "Initial commit\n- y" ∧
    str "Initial commit\n- y" ≠ str "Initial commit\n- x" := by
  refine ⟨by decide, by decide, by decide⟩

/-- C6 as stated is false on the code: with a five-line log and
offset 7 (larger than the total), the spec's clamped window is empty,
but the code's end index total - offset is negative and JS slice wraps
it around, returning the first three lines. -/
theorem c6_counterexample :
    contextWindow [str "a", str "b", str "c", str "d", str "e"] none (some 7) ≠
      specLogWindow [str "a", str "b", str "c", str "d", str "e"] 20 7 ∧
    specLogWindow [str "a", str "b", str "c", str "d", str "e"] 20 7 = [] ∧
    contextWindow [str "a", str "b", str "c", str "d", str "e"] none (some 7) =
      [str "a", str "b", str "c"] := by
  refine ⟨by decide, by decide, by decide⟩

/-- C6 amended: for a positive line count and an offset between 0 and
the total number of lines, the returned window is exactly the spec's
clamped range; an absent line count behaves as 20 and an absent offset
as 0. -/
theorem c6_amended :
    (∀ (logLines : List Str) (L off : Int), 1 ≤ L → 0 ≤ off → off ≤ logLines.length →
      contextWindow logLines (some L) (some off) = specLogWindow logLines L.toNat off.toNat) ∧
    (∀ (logLines : List Str) (oa : Option Int),
      contextWindow logLines none oa = contextWindow logLines (some 20) oa) ∧
    (∀ (logLines : List Str) (la : Option Int),
      contextWindow logLines la none = contextWindow logLines la (some 0)) := by
  refine ⟨?_, ?_, ?_⟩
  · intro logLines L off hL hoff hofftot
    rw [contextWindow, specLogWindow, jsSlice]
    rw [if_neg (by omega : ¬ L = 0)]
    have hs0 : ¬ (max 0 ((logLines.length : Int) - L - off) < 0) := by omega
    have he0 : ¬ ((logLines.length : Int) - off < 0) := by omega
    rw [if_neg hs0, if_neg he0]
    have h1 : (min ((logLines.length : Int) - off) (logLines.length : Int)).toNat =
        logLines.length - off.toNat := by omega
    have h2 : (min (max 0 ((logLines.length : Int) - L - off)) (logLines.length : Int)).toNat =
        logLines.length - L.toNat - off.toNat := by omega
    rw [h1, h2]
  · intro logLines oa
    rfl
  · intro logLines la
    rfl

/-- Witness for C6 amended: the last two of five lines. -/
theorem c6_amended_witness :
    contextWindow [str "a", str "b", str "c", str "d", str "e"] (some 2) (some 0) =
      specLogWindow [str "a", str "b", str "c", str "d", str "e"] (2 : Int).toNat
        (0 : Int).toNat :=
  c6_amended.1 [str "a", str "b", str "c", str "d", str "e"] 2 0 (by decide) (by decide)
    (by decide)

/-- C7: a merge fails exactly when the source branch has no
commit-history document, returning the NotFound marker text unchanged
state, and otherwise reports success; the failure text starts with the
failure marker and the success text with the success marker. -/
theorem c7_merge_notfound :
    (∀ (st : GccState) (src summary ts : Str), st.commitDocs src = none →
      mergeStep st src summary ts = (st, str "✗ Branch '" ++ src ++ str "' not found") ∧
      (str "✗").isPrefixOf (mergeStep st src summary ts).2 = true) ∧
    (∀ (st : GccState) (src summary ts d : Str), st.commitDocs src = some d →
      (str "✓").isPrefixOf (mergeStep st src summary ts).2 = true) := by
  constructor
  · intro st src summary ts hd
    have h1 : mergeStep st src summary ts = (st, str "✗ Branch '" ++ src ++ str "' not found") := by
      rw [mergeStep, hd]
    refine ⟨h1, ?_⟩
    rw [h1]
    show (str "✗").isPrefixOf ((str "✗ Branch '" ++ src) ++ str "' not found") = true
    exact isPrefixOf_append_left (isPrefixOf_append_left (by decide))
  · intro st src summary ts d hd
    simp only [mergeStep, hd]
    repeat apply isPrefixOf_append_left
    decide

/-- Witness for C7: merging the absent branch nosuch from the fresh
state fails with the NotFound text and leaves the state unchanged;
merging the existing branch main succeeds. -/
theorem c7_merge_notfound_witness :
    (mergeStep scenarioState0 (str "nosuch") (str "s") (str "T9") =
      (scenarioState0, str "✗ Branch '" ++ str "nosuch" ++ str "' not found") ∧
      (str "✗").isPrefixOf (mergeStep scenarioState0 (str "nosuch") (str "s") (str "T9")).2 =
        true) ∧
    (str "✓").isPrefixOf (mergeStep scenarioState0 (str "main") (str "s") (str "T9")).2 = true :=
  ⟨c7_merge_notfound.1 scenarioState0 (str "nosuch") (str "s") (str "T9") (by decide),
   c7_merge_notfound.2 scenarioState0 (str "main") (str "s") (str "T9")
     (mainInitDoc (str "T0")) (by decide)⟩

/-- C8 as stated is false on the code: remember writes no
date-partitioned document at all (the current-date document stays
absent), and the one write it does make, the branch-log mirror, is a
multi-line block rather than a single key=value line. -/
theorem c8_counterexample :
    (rememberStep scenarioState0 (str "decision") (str "auth") (str "use jwt")
      none none).1.dateDocs (str "2026-10-11") = none ∧
    scenarioState0.dateDocs (str "2026-10-11") = none ∧
    '\n' ∈ rememberEntry (str "decision") (str "auth") (str "use jwt") none none := by
  refine ⟨by decide, by decide, by decide⟩

/-- C8 amended: remember appends one multi-line block — a leading
newline, a header line "**Memory Added**: type / scope", a
"Content: ..." line, then a line holding "Issue: ..." when a non-empty
issue was given (empty otherwise) and a line holding "Tags: " plus the
comma-joined tags when a non-empty tag list was given (empty
otherwise), with no timestamp — to the active branch's trace log, and
writes nothing else: every date-partitioned document, every commit
history, the roadmap and the active-branch pointer are unchanged. -/
theorem c8_amended (st : GccState) (ty scope content : Str) (issue : Option Str)
    (tags : Option (List Str)) :
    (rememberStep st ty scope content issue tags).1.logDocs (getCurrentBranch st) =
      some ((st.logDocs (getCurrentBranch st)).getD [] ++
        rememberEntry ty scope content issue tags) ∧
    (∀ d, (rememberStep st ty scope content issue tags).1.dateDocs d = st.dateDocs d) ∧
    (rememberStep st ty scope content issue tags).1.commitDocs = st.commitDocs ∧
    (rememberStep st ty scope content issue tags).1.mainDoc = st.mainDoc ∧
    (rememberStep st ty scope content issue tags).1.currentBranchFile =
      st.currentBranchFile := by
  refine ⟨?_, fun d => rfl, rfl, rfl, rfl⟩
  simp [rememberStep, updF]

/-- C9 (spec-modelled): forget removes every record matching scope+type
from every date-partitioned document, reports the number removed, and
appends exactly one audit entry per removed record carrying the
pre-change record and the reason; a subsequent recall with the same
scope and type finds nothing. -/
theorem c9_forget_audit (st : LegacyState) (scope ty reason delTs : Str) :
    (legacyForget st scope ty reason delTs).2 = (legacyRecall st scope ty).length ∧
    legacyRecall (legacyForget st scope ty reason delTs).1 scope ty = [] ∧
    (legacyForget st scope ty reason delTs).1.audit =
      st.audit ++ (legacyRecall st scope ty).map
        (fun r => { record := r, reason := reason, deletedAt := delTs }) := by
  refine ⟨rfl, ?_, rfl⟩
  show ((st.docs.map (fun d => (d.1, d.2.filter (fun r => !legacyMatches scope ty r)))).map
    (fun d => d.2.filter (legacyMatches scope ty))).flatten = []
  rw [List.map_map]
  have hdoc : ∀ d : Str × List LegacyRecord,
      ((fun d => d.2.filter (legacyMatches scope ty)) ∘
        (fun d => (d.1, d.2.filter (fun r => !legacyMatches scope ty r)))) d = [] := by
    intro d
    show (d.2.filter (fun r => !legacyMatches scope ty r)).filter (legacyMatches scope ty) = []
    induction d.2 with
    | nil => rfl
    | cons r rs ih =>
      by_cases hr : legacyMatches scope ty r = true
      · simp [List.filter_cons, hr, ih]
      · simp only [List.filter_cons, hr]
        simp only [Bool.not_eq_true'] at hr
        simp [hr, ih]
  rw [List.map_congr_left (fun d _ => hdoc d)]
  induction st.docs with
  | nil => rfl
  | cons d ds ih => simp [ih]

/-- C10 (implicit): with no pointer file the current branch resolves to
main (and with one present, to its trimmed content), so commit, merge's
destination, context, log, remember and recall all target main until a
branch creation or a switch first writes the pointer. -/
theorem c10_default_main (st : GccState) (hptr : st.currentBranchFile = none) :
    getCurrentBranch st = str "main" ∧
    (∀ s, getCurrentBranch { st with currentBranchFile := some s } = trimChars s) ∧
    (∀ message contribution updateRoadmap hash ts,
      (commitStep st message contribution updateRoadmap hash ts).1.logDocs (str "main") =
        some [] ∧
      ∀ b, b = str "main" ∨
        ((commitStep st message contribution updateRoadmap hash ts).1.commitDocs b =
          st.commitDocs b ∧
         (commitStep st message contribution updateRoadmap hash ts).1.logDocs b =
          st.logDocs b)) ∧
    (∀ src summary ts b, b = str "main" ∨
      ((mergeStep st src summary ts).1.commitDocs b = st.commitDocs b ∧
       (mergeStep st src summary ts).1.logDocs b = st.logDocs b)) ∧
    (∀ la oa, contextLog st none la oa = contextLog st (some (str "main")) la oa) ∧
    (∀ o th a e ts, (logStep st o th a e ts).1.logDocs (str "main") =
      some ((st.logDocs (str "main")).getD [] ++ logEntryOf o th a e ts)) ∧
    (∀ ty scope content issue tags,
      (rememberStep st ty scope content issue tags).1.logDocs (str "main") =
        some ((st.logDocs (str "main")).getD [] ++
          rememberEntry ty scope content issue tags)) ∧
    (∀ q scope ty, recallStep st q none scope ty = recallStep st q (some (str "main")) scope ty) ∧
    (∀ name purpose ts, (branchStep st name purpose ts).1.currentBranchFile = some name) := by
  have hbr : getCurrentBranch st = str "main" := by rw [getCurrentBranch, hptr]
  refine ⟨hbr, ?_, ?_, ?_, ?_, ?_, ?_, ?_, ?_⟩
  · intro s
    rfl
  · intro message contribution updateRoadmap hash ts
    constructor
    · have := commitStep_clears_log st message contribution updateRoadmap hash ts
      rwa [hbr] at this
    · intro b
      by_cases hb : b = str "main"
      · exact Or.inl hb
      · refine Or.inr ?_
        rw [commitStep]
        split
        · constructor <;> simp [updF, hbr, hb]
        · constructor <;> simp [updF, hbr, hb]
  · intro src summary ts b
    by_cases hb : b = str "main"
    · exact Or.inl hb
    · refine Or.inr ?_
      cases hd : st.commitDocs src with
      | none => simp [mergeStep, hd]
      | some d =>
        constructor <;> simp [mergeStep, hd, updF, hbr, hb]
  · intro la oa
    rw [contextLog, contextLog]
    have h1 : orDefault none (getCurrentBranch st) = str "main" := hbr
    have h2 : orDefault (some (str "main")) (getCurrentBranch st) = str "main" := by
      rw [orDefault, if_neg (by decide)]
    rw [h1, h2]
  · intro o th a e ts
    simp [logStep, updF, hbr]
  · intro ty scope content issue tags
    simp [rememberStep, updF, hbr]
  · intro q scope ty
    rw [recallStep, recallStep]
    have h1 : orDefault none (getCurrentBranch st) = str "main" := hbr
    have h2 : orDefault (some (str "main")) (getCurrentBranch st) = str "main" := by
      rw [orDefault, if_neg (by decide)]
    rw [h1, h2]
  · intro name purpose ts
    rfl

/-- Witness for C10: on the fresh first-run state, whose pointer file is
absent, the current branch is main. -/
theorem c10_default_main_witness : getCurrentBranch scenarioState0 = str "main" :=
  (c10_default_main scenarioState0 rfl).1
